import Mathlib

/-!
Verification development for a two-part Python system:
a bounded BFS website crawler (`crawl_websites.py`, class `WebsiteCrawler`)
and a cross-company domain aggregator
(`generate_enhanced_visualization.py`, class `EnhancedVisualizer`).

Strings are modelled by Lean `String` (logically a list of characters);
character-level helpers mirror the Python string methods used by the code
(`strip`, `lower`, `rstrip('/')`, `startswith`, substring containment) at
ASCII scope.  The HTTP fetch plus link extraction, and `urllib.parse.urljoin`,
are external collaborators and are modelled as an oracle environment the
crawler is parameterised over; all theorems quantify over that oracle.
-/

/-- Characters treated as whitespace by Python `str.strip()` (ASCII scope). -/
def pyWhitespace (c : Char) : Bool :=
  c == ' ' || c == '\t' || c == '\n' || c == '\r' || c == '\x0b' || c == '\x0c'

/-- Python `str.lower()` on one character (ASCII scope): maps A-Z to a-z. -/
def pyCharLower (c : Char) : Char :=
  if 'A' ≤ c ∧ c ≤ 'Z' then Char.ofNat (c.toNat + 32) else c

/-- Python `str.lower()` on a character list. -/
def lowerList (l : List Char) : List Char := l.map pyCharLower

/-- Python `str.strip()`: drop leading and trailing whitespace. -/
def stripList (l : List Char) : List Char :=
  ((l.dropWhile pyWhitespace).reverse.dropWhile pyWhitespace).reverse

/-- Python `str.rstrip('/')`: drop every trailing `'/'`. -/
def rstripSlashList (l : List Char) : List Char :=
  (l.reverse.dropWhile (fun c => c == '/')).reverse

/-- Python `pat in hay` substring containment on character lists. -/
def hasSubstr (pat : List Char) : List Char → Bool
  | [] => pat.isPrefixOf []
  | c :: t => pat.isPrefixOf (c :: t) || hasSubstr pat t

/-- Characters stripped from the front of a URL by `urllib.parse.urlsplit`
(C0 controls and space, per the WHATWG rule adopted by CPython). -/
def isC0OrSpace (c : Char) : Bool := decide (c.toNat ≤ 32)

/-- Bytes removed everywhere in a URL by `urllib.parse.urlsplit`. -/
def isUnsafeUrlByte (c : Char) : Bool := c == '\t' || c == '\r' || c == '\n'

/-- Characters allowed in a URL scheme by `urllib.parse` after the first. -/
def isSchemeChar (c : Char) : Bool :=
  c.isAlpha || c.isDigit || c == '+' || c == '-' || c == '.'

/-- Split a character list at its first `':'`, if any. -/
def splitAtColon : List Char → Option (List Char × List Char)
  | [] => none
  | c :: t =>
    if c == ':' then some ([], t)
    else (splitAtColon t).map (fun p => (c :: p.1, p.2))

/-- Scheme detection of `urllib.parse.urlsplit`: the text before the first
`':'` is the scheme when it is nonempty, starts with an ASCII letter and
consists of scheme characters; the scheme is lowercased.  Returns
`(scheme, remainder)`, with `([], url)` when no scheme is recognised. -/
def splitScheme (l : List Char) : List Char × List Char :=
  match splitAtColon l with
  | none => ([], l)
  | some (pre, post) =>
    match pre with
    | [] => ([], l)
    | c0 :: _ => if c0.isAlpha && pre.all isSchemeChar then (lowerList pre, post) else ([], l)

/-- The `scheme` and `netloc` components produced by `urllib.parse.urlparse`
(the only components the Python code ever reads). -/
structure SplitResult where
  scheme : List Char
  netloc : List Char
deriving DecidableEq

/-- Characters ending the netloc in `urllib.parse.urlsplit`. -/
def netlocDelim (c : Char) : Bool := c == '/' || c == '?' || c == '#'

/-- Model of `urllib.parse.urlsplit` restricted to scheme and netloc:
strip leading C0-control/space characters, delete tab/CR/LF everywhere,
detect the scheme, and when the remainder starts with `"//"` read the netloc
up to the next `/`, `?` or `#`.  `none` models the `ValueError` raised on an
unbalanced bracket in the netloc.  (The content check inside balanced
brackets and the non-ASCII netloc check are not modelled, so this accepts a
superset of what CPython accepts; every caller in the modelled code treats a
raise as "invalid".) -/
def urlsplitList (url : List Char) : Option SplitResult :=
  let u1 := url.dropWhile isC0OrSpace
  let u2 := u1.filter (fun c => ! isUnsafeUrlByte c)
  let sp := splitScheme u2
  match sp.2 with
  | '/' :: '/' :: rest =>
    let netloc := rest.takeWhile (fun c => ! netlocDelim c)
    if (netloc.contains '[' && ! netloc.contains ']')
        || (netloc.contains ']' && ! netloc.contains '[') then none
    else some ⟨sp.1, netloc⟩
  | _ => some ⟨sp.1, []⟩

/-- Character list of `"www."`. -/
def wwwChars : List Char := ("www.").data

/-- Character list of `"http://"`. -/
def httpChars : List Char := ("http://").data

/-- Character list of `"https://"`. -/
def httpsChars : List Char := ("https://").data

/-- The `www.`-stripping step of `clean_url` (line 48-49): drop a leading
`"www."`. -/
def wwwStep (l : List Char) : List Char :=
  if wwwChars.isPrefixOf l then l.drop 4 else l

/-- The scheme step of `clean_url` (line 50-51): prepend `"https://"` when
the string starts with neither `"http://"` nor `"https://"`. -/
def schemeStep (l : List Char) : List Char :=
  if httpChars.isPrefixOf l || httpsChars.isPrefixOf l then l else httpsChars ++ l

/-- `WebsiteCrawler.clean_url` (crawl_websites.py lines 43-52) on character
lists: empty input is returned as is; otherwise strip whitespace, lowercase,
drop a leading `"www."`, prepend `"https://"` when no `http://`/`https://`
prefix is present, and finally `rstrip('/')`. -/
def clean_urlList (url : List Char) : List Char :=
  if url = [] then []
  else rstripSlashList (schemeStep (wwwStep (lowerList (stripList url))))

/-- `WebsiteCrawler.clean_url` on `String`. -/
def clean_url (url : String) : String := ⟨clean_urlList url.data⟩

/-- `WebsiteCrawler.is_valid_url` (lines 34-41): clean the URL, parse it, and
require a nonempty scheme and netloc; a parse error yields `false`. -/
def is_valid_url (url : String) : Bool :=
  match urlsplitList (clean_urlList url.data) with
  | none => false
  | some r => ! r.scheme.isEmpty && ! r.netloc.isEmpty

/-- `WebsiteCrawler.get_domain` (lines 54-56): the netloc of the URL.  The
Python code applies it only to URLs that already passed `is_valid_url`, for
which the parse succeeds; a failed parse is mapped to the empty string. -/
def get_domain (url : String) : String :=
  match urlsplitList url.data with
  | some r => ⟨r.netloc⟩
  | none => ""

/-- Fetch-and-extract oracle: `fetchLinks u` is `none` when fetching `u`
fails, raises, or returns a non-200 status, and `some hrefs` when extraction
yields the raw `href` strings `hrefs`; `urljoin` models
`urllib.parse.urljoin`. -/
structure CrawlEnv where
  fetchLinks : String → Option (List String)
  urljoin : String → String → String

/-- Crawler configuration (`WebsiteCrawler.__init__`). -/
structure CrawlConfig where
  max_depth : Nat
  max_pages_per_site : Nat
  delay : Nat
deriving DecidableEq

/-- A node record of `graph_data['nodes']`. -/
structure GNode where
  id : String
  label : String
  title : String
  color : String
deriving DecidableEq

/-- An edge record of `graph_data['edges']`; `efrom` and `eto` model the
JSON keys `'from'` and `'to'`. -/
structure GEdge where
  efrom : String
  eto : String
  title : String
deriving DecidableEq

/-- The state of the BFS loop in `WebsiteCrawler.crawl` (lines 114-168):
the FIFO queue of `(url, depth)` pairs, the visited set (kept here as the
list of URLs in insertion order; Python inserts into a set exactly when the
URL is absent, so the length is the set's cardinality), and the accumulated
`graph_data` nodes and edges.  `nodeDepths` is instrumentation recording the
depth at which each visited URL was discovered (the depth it carried when
enqueued); it mirrors data the Python code holds in the queue and is used
only to state depth properties. -/
structure CrawlState where
  queue : List (String × Nat)
  visited : List String
  nodes : List GNode
  edges : List GEdge
  nodeDepths : List (String × Nat)
deriving DecidableEq

/-- Recording of a newly discovered URL (lines 146-162): mark it visited,
enqueue it at `depth + 1`, and append its node (salmon for an external
domain, blue for the seed's domain) and the edge from the current page.
(The source writes the edge title with a right arrow between the URLs.) -/
def discover (start_url current_url full_url : String) (depth : Nat)
    (st : CrawlState) : CrawlState :=
  { st with
    visited := st.visited ++ [full_url]
    queue := st.queue ++ [(full_url, depth + 1)]
    nodes := st.nodes ++ [{ id := full_url
                            label := get_domain full_url
                            title := full_url
                            color := if get_domain full_url ≠ get_domain start_url
                                     then ("#ffa07a") else ("#97c2fc") }]
    edges := st.edges ++ [{ efrom := current_url
                            eto := full_url
                            title := current_url ++ (" → ") ++ full_url }]
    nodeDepths := st.nodeDepths ++ [(full_url, depth + 1)] }

/-- Processing of one extracted `href` (lines 141-162): resolve it against
the current page, clean it, and when it is new and valid record it via
`discover`. -/
def addLink (E : CrawlEnv) (start_url current_url : String) (depth : Nat)
    (st : CrawlState) (href : String) : CrawlState :=
  let full_url := clean_url (E.urljoin current_url href)
  if ! st.visited.contains full_url && is_valid_url full_url then
    discover start_url current_url full_url depth st
  else st

/-- One iteration of the BFS `while` body (lines 128-168): pop the front
queue entry; entries at depth `≥ max_depth` are skipped without expansion,
a failed fetch skips the entry, and a successful fetch processes every
extracted link in order. -/
def crawlStep (E : CrawlEnv) (cfg : CrawlConfig) (start_url : String)
    (st : CrawlState) : CrawlState :=
  match st.queue with
  | [] => st
  | (current_url, depth) :: rest =>
    let st1 := { st with queue := rest }
    if cfg.max_depth ≤ depth then st1
    else
      match E.fetchLinks current_url with
      | none => st1
      | some hrefs => hrefs.foldl (addLink E start_url current_url depth) st1

/-- The BFS `while` loop (line 127): iterate `crawlStep` while the queue is
nonempty and fewer than `max_pages_per_site` URLs are visited.  `fuel`
bounds the number of iterations; every theorem below holds for every fuel
value, in particular for any fuel large enough for the loop to reach its
exit condition. -/
def crawlLoop (E : CrawlEnv) (cfg : CrawlConfig) (start_url : String) :
    Nat → CrawlState → CrawlState
  | 0, st => st
  | fuel + 1, st =>
    if st.queue ≠ [] ∧ st.visited.length < cfg.max_pages_per_site then
      crawlLoop E cfg start_url fuel (crawlStep E cfg start_url st)
    else st

/-- The loop's initial state (lines 114-125): queue and visited seeded with
the cleaned start URL at depth 0, and the blue seed node already recorded. -/
def initState (start_url : String) : CrawlState :=
  { queue := [(start_url, 0)]
    visited := [start_url]
    nodes := [{ id := start_url
                label := get_domain start_url
                title := start_url
                color := ("#97c2fc") }]
    edges := []
    nodeDepths := [(start_url, 0)] }

/-- The per-entity snapshot persisted by `save_crawled_data`: the
`graph_data` nodes and edges plus the company name and cleaned start URL
(the crawl date is external bookkeeping). -/
structure Snapshot where
  nodes : List GNode
  edges : List GEdge
  company_name : String
  start_url : String
deriving DecidableEq

/-- Outcome of `WebsiteCrawler.crawl` for one entity: `success` carries the
persisted snapshot (the code saves it and returns `True`); `failure`
carries the reason string recorded in `failed_crawls`. -/
inductive CrawlOutcome where
  | success (snap : Snapshot)
  | failure (company_name start_url reason : String)
deriving DecidableEq

/-- `WebsiteCrawler.crawl` (lines 98-183): reject an empty start URL, clean
it, reject it when `is_valid_url` fails, run the BFS loop, and report
success exactly when at least one URL was visited. -/
def crawl (E : CrawlEnv) (cfg : CrawlConfig) (fuel : Nat)
    (start_url company_name : String) : CrawlOutcome :=
  if start_url = "" then .failure company_name start_url ("Empty or invalid URL")
  else
    let s := clean_url start_url
    if ! is_valid_url s then .failure company_name s ("Invalid URL")
    else
      let finSt := crawlLoop E cfg s fuel (initState s)
      if 0 < finSt.visited.length then .success ⟨finSt.nodes, finSt.edges, company_name, s⟩
      else .failure company_name s ("No pages crawled")

/-- The nodes of a crawl outcome (empty for a failure). -/
def outcomeNodes : CrawlOutcome → List GNode
  | .success snap => snap.nodes
  | .failure _ _ _ => []

/-- `EnhancedVisualizer.excluded_patterns`
(generate_enhanced_visualization.py lines 20-34). -/
def excluded_patterns : List String :=
  [ "facebook.com", "instagram.com", "twitter.com", "x.com",
    "linkedin.com", "youtube.com", "shopify.com", "mailto:",
    "tel:", "phone", "whatsapp", "pinterest", "tiktok",
    "google.com", "apple.com", "android", "play.google.com",
    "bing.com", "yahoo.com", "goo.gl", "bit.ly", "tinyurl.com",
    "maps.google.com", "maps.apple.com", "maps.microsoft.com", "maps.yandex.com",
    "mspd.app.goo.gl", "javascript:void(0)", "javascript:void(0);", "maps.google.co.us",
    "cloudfare.org", "creators.yahoo.com", "help.yahoo.com", "hyodrogen.shopify.dev",
    "legal.yahoo.com", "lnkd.in", "sopifystatus.com", "shopifyinvestors.com", "shopify.dev",
    "yelp.com", "yahooinc.com", "wp.me", "wordpress.com", "wordpress.org", "vimeo.com",
    "yahoo.uservoice.com", "ycombinator.com", "ycombinator.net", "ycombinator.org",
    "amazonaws.com", "amazon.com", "javascript:", "javascript:;", "javascript" ]

/-- `EnhancedVisualizer.is_excluded_domain` (lines 41-44): case-insensitive
substring match of the URL against any exclusion pattern. -/
def is_excluded_domain (url : String) : Bool :=
  let url_lower := lowerList url.data
  excluded_patterns.any (fun pat => hasSubstr pat.data url_lower)

/-- `EnhancedVisualizer.extract_domain` (lines 46-56): the lowercased netloc
of the URL with a leading `"www."` removed; `none` models the `except`
branch returning `None` on a parse error. -/
def extract_domain (url : String) : Option String :=
  match urlsplitList url.data with
  | none => none
  | some r =>
    let domain := lowerList r.netloc
    some ⟨if wwwChars.isPrefixOf domain then domain.drop 4 else domain⟩

/-- Aggregator state: `domain_to_companies` and `cross_connections` model
the two `defaultdict(set)` maps (total functions defaulting to the empty
set); `domainKeys` and `crossKeys` record which keys have been materialised
by an insertion, mirroring the dictionaries' key sets, which the emission
step iterates over. -/
structure AggState where
  domain_to_companies : String → Finset String
  domainKeys : Finset String
  cross_connections : String → Finset String
  crossKeys : Finset String

/-- Insert `v` into the set stored at key `k` of map `m`. -/
def addToMap (m : String → Finset String) (k v : String) : String → Finset String :=
  fun d => if d = k then insert v (m d) else m d

/-- The inner edge loop of `process_company_data` (lines 81-90): for an edge
leaving the current node's URL, record `source_domain → target_domain`
unless the target's domain is missing/empty or the target URL is excluded. -/
def processNodeEdges (source_url source_domain : String) (st : AggState)
    (edge : GEdge) : AggState :=
  if edge.efrom == source_url then
    match extract_domain edge.eto with
    | none => st
    | some target_domain =>
      if target_domain == ("") || is_excluded_domain edge.eto then st
      else
        { st with
          cross_connections := addToMap st.cross_connections source_domain target_domain
          crossKeys := insert source_domain st.crossKeys }
  else st

/-- The body of the node loop of `process_company_data` (lines 70-90): skip
nodes whose domain is missing/empty or whose URL is excluded; otherwise add
the company to the domain's ownership set and run the edge loop. -/
def processNode (company_name : String) (edges : List GEdge) (st : AggState)
    (node : GNode) : AggState :=
  let source_url := node.id
  match extract_domain source_url with
  | none => st
  | some source_domain =>
    if source_domain == ("") || is_excluded_domain source_url then st
    else
      let st1 :=
        { st with
          domain_to_companies := addToMap st.domain_to_companies source_domain company_name
          domainKeys := insert source_domain st.domainKeys }
      edges.foldl (processNodeEdges source_url source_domain) st1

/-- `EnhancedVisualizer.process_company_data` (lines 58-90) on one loaded
snapshot. -/
def process_company_data (st : AggState) (company_name : String) (data : Snapshot) :
    AggState :=
  data.nodes.foldl (processNode company_name data.edges) st

/-- The aggregator's initial state (both maps empty). -/
def initAggState : AggState :=
  { domain_to_companies := fun _ => ∅
    domainKeys := ∅
    cross_connections := fun _ => ∅
    crossKeys := ∅ }

/-- `EnhancedVisualizer.process_all_companies` (lines 277-287) restricted to
its aggregation pass: process every persisted snapshot in order. -/
def process_all_companies (corpus : List Snapshot) : AggState :=
  corpus.foldl (fun st snap => process_company_data st snap.company_name snap) initAggState

/-- A node of the emitted cross-company graph, with the size and colour
computed by `create_cross_company_visualization` (lines 106-113 and
124-131): size `20 + 5·|owners|`, blue (`"#1f77b4"`) for a domain owned by
more than one company, grey otherwise. -/
structure VisNode where
  domain : String
  size : Nat
  color : String
deriving DecidableEq

/-- The attributes the emission step attaches to an emitted domain node. -/
def visNodeFor (st : AggState) (d : String) : VisNode :=
  let companies := st.domain_to_companies d
  { domain := d
    size := 20 + companies.card * 5
    color := if 1 < companies.card then ("#1f77b4") else ("#7f7f7f") }

/-- The set of domains emitted as nodes by
`create_cross_company_visualization` (lines 99-135): every source domain of
`cross_connections`, plus every connection target whose ownership set is
nonempty (the `added_nodes` set makes each domain appear once). -/
def emittedNodeDomains (st : AggState) : Finset String :=
  st.crossKeys ∪
    st.crossKeys.biUnion
      (fun s => (st.cross_connections s).filter (fun t => st.domain_to_companies t ≠ ∅))

/-- The set of edges emitted by `create_cross_company_visualization`
(lines 116-135): `source → target` for every recorded connection whose
target has a nonempty ownership set, except self-loops (line 134). -/
def emittedEdges (st : AggState) : Finset (String × String) :=
  st.crossKeys.biUnion
    (fun s =>
      ((st.cross_connections s).filter
          (fun t => st.domain_to_companies t ≠ ∅ ∧ s ≠ t)).image (fun t => (s, t)))

/-- The `total_connections` statistic of `create_cross_company_wrapper`
(line 250): the sum of the sizes of all recorded connection sets. -/
def total_connections (st : AggState) : Nat :=
  st.crossKeys.sum (fun d => (st.cross_connections d).card)

/-- The weight of a domain: the number of companies owning it (the spec's
`|DomainOwnership[domain]|`; the code renders it as node size and in the
shared-domain statistics). -/
def domainWeight (st : AggState) (d : String) : Nat :=
  (st.domain_to_companies d).card

/-- Classification of a domain: `"shared"` when owned by more than one
company (the `len(companies) > 1` test at lines 112, 249 and 255),
`"exclusive"` otherwise. -/
def isSharedDomain (st : AggState) (d : String) : Bool :=
  decide (1 < domainWeight st d)

/-! ## Generic list and character lemmas -/

/-- Folding preserves any predicate preserved by each step. -/
theorem foldl_preserves {α σ : Type} (f : σ → α → σ) (P : σ → Prop)
    (h : ∀ s a, P s → P (f s a)) : ∀ (l : List α) (s : σ), P s → P (l.foldl f s) := by
  intro l
  induction l with
  | nil => intro s hs; exact hs
  | cons a t ih => intro s hs; exact ih _ (h s a hs)

/-- `dropWhile` is idempotent. -/
theorem dropWhile_idem (p : Char → Bool) (l : List Char) :
    (l.dropWhile p).dropWhile p = l.dropWhile p := by
  induction l with
  | nil => rfl
  | cons a t ih =>
    by_cases h : p a
    · simp [List.dropWhile_cons, h, ih]
    · simp [List.dropWhile_cons, h]

/-- `dropWhile` keeps a list on which the predicate never holds. -/
theorem dropWhile_eq_self_of_all (p : Char → Bool) (l : List Char)
    (h : ∀ a ∈ l, p a = false) : l.dropWhile p = l := by
  cases l with
  | nil => rfl
  | cons a t => simp [List.dropWhile_cons, h a (List.mem_cons_self a t)]

/-- Removing trailing slashes is idempotent. -/
theorem rstrip_idem (l : List Char) :
    rstripSlashList (rstripSlashList l) = rstripSlashList l := by
  unfold rstripSlashList
  rw [List.reverse_reverse, dropWhile_idem]

/-- How trailing-slash removal acts on an append. -/
theorem rstrip_append (a b : List Char) :
    rstripSlashList (a ++ b) =
      if rstripSlashList b = [] then rstripSlashList a else a ++ rstripSlashList b := by
  unfold rstripSlashList
  rw [List.reverse_append, List.dropWhile_append]
  by_cases h : (b.reverse.dropWhile (fun c => c == '/')) = []
  · simp [h]
  · have hne : (b.reverse.dropWhile (fun c => c == '/')).isEmpty = false := by
      cases hb : b.reverse.dropWhile (fun c => c == '/') with
      | nil => exact absurd hb h
      | cons x xs => rfl
    rw [hne]
    simp only [Bool.false_eq_true, if_false, List.reverse_append]
    have hne2 : (b.reverse.dropWhile (fun c => c == '/')).reverse ≠ [] := by
      simpa using h
    rw [if_neg hne2, List.reverse_reverse]

/-- The code point of a lowered uppercase letter. -/
theorem pyCharLower_toNat_of_upper (c : Char) (h : 'A' ≤ c ∧ c ≤ 'Z') :
    (pyCharLower c).toNat = c.toNat + 32 := by
  have h65 : 65 ≤ c.toNat := h.1
  have h90 : c.toNat ≤ 90 := h.2
  have hv : Nat.isValidChar (c.toNat + 32) := by
    left
    omega
  simp [pyCharLower, h, Char.ofNat, hv]
  rfl

/-- Python's per-character lowercasing is idempotent. -/
theorem pyCharLower_idem (c : Char) : pyCharLower (pyCharLower c) = pyCharLower c := by
  by_cases h : 'A' ≤ c ∧ c ≤ 'Z'
  · have ht := pyCharLower_toNat_of_upper c h
    have h65 : 65 ≤ c.toNat := h.1
    have h90 : c.toNat ≤ 90 := h.2
    have hncond : ¬('A' ≤ pyCharLower c ∧ pyCharLower c ≤ 'Z') := by
      intro hc
      have : (pyCharLower c).toNat ≤ 90 := hc.2
      omega
    conv_lhs => rw [pyCharLower]
    rw [if_neg hncond]
  · simp [pyCharLower, h]

/-- Whitespace characters have code points at most 32. -/
theorem pyWhitespace_toNat (c : Char) (h : pyWhitespace c = true) : c.toNat ≤ 32 := by
  simp only [pyWhitespace, Bool.or_eq_true, beq_iff_eq] at h
  rcases h with ((((h | h) | h) | h) | h) | h <;> subst h <;> decide

/-- Lowercasing never creates a whitespace character. -/
theorem pyCharLower_whitespace (c : Char) (h : pyWhitespace c = false) :
    pyWhitespace (pyCharLower c) = false := by
  by_cases hu : 'A' ≤ c ∧ c ≤ 'Z'
  · have ht := pyCharLower_toNat_of_upper c hu
    have h65 : 65 ≤ c.toNat := hu.1
    by_contra hw
    have := pyWhitespace_toNat (pyCharLower c)
      (by revert hw; cases pyWhitespace (pyCharLower c) <;> simp)
    omega
  · simp [pyCharLower, hu, h]

/-- Members of a stripped list are members of the list. -/
theorem mem_of_mem_stripList {a : Char} {l : List Char} (h : a ∈ stripList l) : a ∈ l := by
  unfold stripList at h
  rw [List.mem_reverse] at h
  have h2 := (List.dropWhile_sublist _).subset h
  rw [List.mem_reverse] at h2
  exact (List.dropWhile_sublist _).subset h2

/-- Stripping a list with no whitespace is the identity. -/
theorem stripList_eq_self_of_no_ws {l : List Char}
    (h : ∀ a ∈ l, pyWhitespace a = false) : stripList l = l := by
  unfold stripList
  rw [dropWhile_eq_self_of_all _ _ h,
      dropWhile_eq_self_of_all _ _ (fun a ha => h a (List.mem_reverse.mp ha)),
      List.reverse_reverse]

/-- Members of a trailing-slash-stripped list are members of the list. -/
theorem mem_of_mem_rstrip {a : Char} {l : List Char} (h : a ∈ rstripSlashList l) : a ∈ l := by
  unfold rstripSlashList at h
  rw [List.mem_reverse] at h
  exact List.mem_reverse.mp ((List.dropWhile_sublist _).subset h)

/-- Every character of a lowered list is fixed by lowering. -/
theorem lowerList_fixed {l : List Char} {a : Char} (h : a ∈ lowerList l) :
    pyCharLower a = a := by
  unfold lowerList at h
  obtain ⟨b, _, rfl⟩ := List.mem_map.mp h
  exact pyCharLower_idem b

/-- Lowering a list of characters fixed by lowering is the identity. -/
theorem lowerList_eq_self_of_fixed {l : List Char} (h : ∀ a ∈ l, pyCharLower a = a) :
    lowerList l = l := by
  induction l with
  | nil => rfl
  | cons b t ih =>
    simp only [lowerList, List.map_cons] at *
    rw [h b (List.mem_cons_self b t), ih (fun a ha => h a (List.mem_cons_of_mem b ha))]

/-- Lowering preserves whitespace-freeness. -/
theorem lowerList_no_ws {l : List Char} (h : ∀ a ∈ l, pyWhitespace a = false) :
    ∀ a ∈ lowerList l, pyWhitespace a = false := by
  intro a ha
  obtain ⟨b, hb, rfl⟩ := List.mem_map.mp ha
  exact pyCharLower_whitespace b (h b hb)

/-- The `www.` step only drops characters. -/
theorem wwwStep_subset (l : List Char) : wwwStep l ⊆ l := by
  unfold wwwStep
  by_cases h : wwwChars.isPrefixOf l = true
  · rw [if_pos h]
    exact List.drop_subset 4 l
  · rw [if_neg h]
    exact fun a ha => ha

/-- The scheme step produces `"http://"` or `"https://"` followed by
characters of the input. -/
theorem schemeStep_shape (l : List Char) :
    ∃ pre r, (pre = httpChars ∨ pre = httpsChars) ∧ schemeStep l = pre ++ r ∧ r ⊆ l := by
  unfold schemeStep
  by_cases h : (httpChars.isPrefixOf l || httpsChars.isPrefixOf l) = true
  · rw [if_pos h]
    rcases Bool.or_eq_true _ _ |>.mp h with h1 | h1
    · obtain ⟨r, hr⟩ := List.isPrefixOf_iff_prefix.mp h1
      exact ⟨httpChars, r, Or.inl rfl, hr.symm,
        by rw [← hr]; exact List.subset_append_right _ _⟩
    · obtain ⟨r, hr⟩ := List.isPrefixOf_iff_prefix.mp h1
      exact ⟨httpsChars, r, Or.inr rfl, hr.symm,
        by rw [← hr]; exact List.subset_append_right _ _⟩
  · rw [if_neg h]
    exact ⟨httpsChars, l, Or.inr rfl, rfl, fun a ha => ha⟩

/-- The characters of `"http://"` are lowercase non-whitespace. -/
theorem httpChars_fixed : ∀ a ∈ httpChars, pyCharLower a = a ∧ pyWhitespace a = false := by
  decide

/-- The characters of `"https://"` are lowercase non-whitespace. -/
theorem httpsChars_fixed : ∀ a ∈ httpsChars, pyCharLower a = a ∧ pyWhitespace a = false := by
  decide

/-- List-level idempotence of `clean_url` on valid, whitespace-free input. -/
theorem clean_urlList_idem (l : List Char)
    (hws : ∀ a ∈ l, pyWhitespace a = false)
    (hval : is_valid_url (String.mk l) = true) :
    clean_urlList (clean_urlList l) = clean_urlList l := by
  by_cases hl : l = []
  · subst hl; rfl
  · have hfix1 : ∀ a ∈ lowerList (stripList l), pyCharLower a = a :=
      fun a ha => lowerList_fixed ha
    have hws1 : ∀ a ∈ lowerList (stripList l), pyWhitespace a = false :=
      lowerList_no_ws (fun a ha => hws a (mem_of_mem_stripList ha))
    obtain ⟨pre, r, hpre, hs, hsub⟩ := schemeStep_shape (wwwStep (lowerList (stripList l)))
    have hrsub : r ⊆ lowerList (stripList l) := fun a ha => wwwStep_subset _ (hsub ha)
    have hcl : clean_urlList l = rstripSlashList (pre ++ r) := by
      simp only [clean_urlList, if_neg hl, hs]
    have hval' : (match urlsplitList (clean_urlList l) with
        | none => false
        | some res => ! res.scheme.isEmpty && ! res.netloc.isEmpty) = true := hval
    by_cases hre : rstripSlashList r = []
    · exfalso
      have hc : clean_urlList l = rstripSlashList pre := by
        rw [hcl, rstrip_append, if_pos hre]
      rcases hpre with h1 | h1 <;> subst h1
      · rw [show rstripSlashList httpChars = ('h' :: 't' :: 't' :: 'p' :: ':' :: [])
            from by decide] at hc
        rw [hc] at hval'
        exact absurd hval' (by decide)
      · rw [show rstripSlashList httpsChars = ('h' :: 't' :: 't' :: 'p' :: 's' :: ':' :: [])
            from by decide] at hc
        rw [hc] at hval'
        exact absurd hval' (by decide)
    · have hc : clean_urlList l = pre ++ rstripSlashList r := by
        rw [hcl, rstrip_append, if_neg hre]
      have hcfix : ∀ a ∈ pre ++ rstripSlashList r, pyCharLower a = a := by
        intro a ha
        rcases List.mem_append.mp ha with ha | ha
        · rcases hpre with h1 | h1 <;> subst h1
          · exact (httpChars_fixed a ha).1
          · exact (httpsChars_fixed a ha).1
        · exact hfix1 a (hrsub (mem_of_mem_rstrip ha))
      have hcws : ∀ a ∈ pre ++ rstripSlashList r, pyWhitespace a = false := by
        intro a ha
        rcases List.mem_append.mp ha with ha | ha
        · rcases hpre with h1 | h1 <;> subst h1
          · exact (httpChars_fixed a ha).2
          · exact (httpsChars_fixed a ha).2
        · exact hws1 a (hrsub (mem_of_mem_rstrip ha))
      have hcne : pre ++ rstripSlashList r ≠ [] := by
        rcases hpre with h1 | h1 <;> subst h1 <;> simp [httpChars, httpsChars]
      have hhead : ∃ t, pre ++ rstripSlashList r = 'h' :: t := by
        rcases hpre with h1 | h1 <;> subst h1
        · exact ⟨('t' :: 't' :: 'p' :: ':' :: '/' :: '/' :: []) ++ rstripSlashList r, rfl⟩
        · exact ⟨('t' :: 't' :: 'p' :: 's' :: ':' :: '/' :: '/' :: []) ++ rstripSlashList r, rfl⟩
      rw [hc]
      simp only [clean_urlList, if_neg hcne]
      rw [stripList_eq_self_of_no_ws hcws, lowerList_eq_self_of_fixed hcfix]
      have hwww : wwwStep (pre ++ rstripSlashList r) = pre ++ rstripSlashList r := by
        obtain ⟨t, ht⟩ := hhead
        rw [wwwStep, ht]
        rw [show wwwChars = 'w' :: ('w' :: 'w' :: '.' :: []) from rfl, List.isPrefixOf_cons₂]
        simp
      rw [hwww]
      have hsch : schemeStep (pre ++ rstripSlashList r) = pre ++ rstripSlashList r := by
        rw [schemeStep]
        rcases hpre with h1 | h1 <;> subst h1
        · have hp : httpChars.isPrefixOf (httpChars ++ rstripSlashList r) = true :=
            List.isPrefixOf_iff_prefix.mpr ⟨_, rfl⟩
          simp [hp]
        · have hp : httpsChars.isPrefixOf (httpsChars ++ rstripSlashList r) = true :=
            List.isPrefixOf_iff_prefix.mpr ⟨_, rfl⟩
          simp [hp]
      rw [hsch]
      rw [show pre ++ rstripSlashList r = rstripSlashList (pre ++ r) from by
            rw [rstrip_append, if_neg hre]]
      rw [rstrip_idem]

/-! ## Crawl loop invariants -/

/-- The invariant maintained by the BFS loop of `crawl`: the node list
parallels the visited list, which is duplicate-free and starts with the
seed; the edge targets are the visited URLs in discovery order (everything
but the seed); every edge leaves a URL discovered strictly before its
target; queued URLs are visited and queued depths are bounded; and the
recorded discovery depths parallel the visited list and are bounded. -/
structure CrawlInv (cfg : CrawlConfig) (start_url : String) (st : CrawlState) : Prop where
  visited_nodes : st.nodes.map GNode.id = st.visited
  nodup : st.visited.Nodup
  seed_first : ∃ t, st.visited = start_url :: t
  edges_to : st.edges.map GEdge.eto = st.visited.drop 1
  edges_from : ∀ k (hk : k < st.edges.length), (st.edges[k]).efrom ∈ st.visited.take (k + 1)
  queue_vis : ∀ p ∈ st.queue, p.1 ∈ st.visited
  queue_depth : ∀ p ∈ st.queue, p.2 ≤ cfg.max_depth
  depths_fst : st.nodeDepths.map Prod.fst = st.visited
  depths_le : ∀ p ∈ st.nodeDepths, p.2 ≤ cfg.max_depth

/-- The edge list is one shorter than the visited list. -/
theorem CrawlInv.edges_length {cfg : CrawlConfig} {start_url : String} {st : CrawlState}
    (inv : CrawlInv cfg start_url st) : st.edges.length + 1 = st.visited.length := by
  obtain ⟨t, ht⟩ := inv.seed_first
  have := congrArg List.length inv.edges_to
  simp only [List.length_map, List.length_drop] at this
  rw [this, ht]
  simp

/-- `discover` preserves the loop invariant. -/
theorem discover_inv {cfg : CrawlConfig} {start_url current_url full_url : String}
    {depth : Nat} {st : CrawlState}
    (inv : CrawlInv cfg start_url st)
    (hfull : full_url ∉ st.visited)
    (hcur : current_url ∈ st.visited)
    (hdep : depth < cfg.max_depth) :
    CrawlInv cfg start_url (discover start_url current_url full_url depth st) := by
  obtain ⟨t, ht⟩ := inv.seed_first
  have hlen := inv.edges_length
  refine ⟨?_, ?_, ?_, ?_, ?_, ?_, ?_, ?_, ?_⟩
  · simp [discover, List.map_append, inv.visited_nodes]
  · simp only [discover]
    rw [List.nodup_append]
    exact ⟨inv.nodup, List.nodup_singleton _,
      fun a ha hb => hfull ((List.mem_singleton.mp hb) ▸ ha)⟩
  · exact ⟨t ++ [full_url], by simp [discover, ht]⟩
  · simp only [discover, List.map_append]
    rw [inv.edges_to, List.drop_append_of_le_length (by rw [ht]; simp)]
    rfl
  · intro k hk
    simp only [discover, List.length_append, List.length_singleton] at hk
    by_cases hklt : k < st.edges.length
    · simp only [discover]
      rw [List.getElem_append_left hklt, List.take_append_of_le_length (by omega)]
      exact inv.edges_from k hklt
    · simp only [discover]
      rw [List.getElem_append_right (by omega)]
      have hidx : k - st.edges.length = 0 := by omega
      simp only [hidx, List.getElem_cons_zero]
      rw [show k + 1 = st.visited.length from by omega, List.take_left]
      exact hcur
  · intro p hp
    simp only [discover, List.mem_append] at hp
    rcases hp with hp | hp
    · exact List.mem_append_left _ (inv.queue_vis p hp)
    · rw [List.mem_singleton.mp hp]
      exact List.mem_append_right _ (List.mem_singleton_self _)
  · intro p hp
    simp only [discover, List.mem_append] at hp
    rcases hp with hp | hp
    · exact inv.queue_depth p hp
    · rw [List.mem_singleton.mp hp]
      omega
  · simp [discover, List.map_append, inv.depths_fst]
  · intro p hp
    simp only [discover, List.mem_append] at hp
    rcases hp with hp | hp
    · exact inv.depths_le p hp
    · rw [List.mem_singleton.mp hp]
      omega

/-- `addLink` preserves the loop invariant together with membership of the
current page in the visited set. -/
theorem addLink_inv {E : CrawlEnv} {cfg : CrawlConfig} {start_url current_url : String}
    {depth : Nat} {st : CrawlState} (href : String)
    (h : CrawlInv cfg start_url st ∧ current_url ∈ st.visited)
    (hdep : depth < cfg.max_depth) :
    CrawlInv cfg start_url (addLink E start_url current_url depth st href) ∧
      current_url ∈ (addLink E start_url current_url depth st href).visited := by
  obtain ⟨inv, hcur⟩ := h
  simp only [addLink]
  by_cases hc : (! st.visited.contains (clean_url (E.urljoin current_url href)) &&
      is_valid_url (clean_url (E.urljoin current_url href))) = true
  · rw [if_pos hc]
    have hnotmem : clean_url (E.urljoin current_url href) ∉ st.visited := by
      intro hmem
      have h1 := ((Bool.and_eq_true _ _).mp hc).1
      rw [Bool.not_eq_eq_eq_not, Bool.not_true] at h1
      have h2 : st.visited.contains (clean_url (E.urljoin current_url href)) = true :=
        List.elem_iff.mpr hmem
      rw [h2] at h1
      cases h1
    exact ⟨discover_inv inv hnotmem hcur hdep, List.mem_append_left _ hcur⟩
  · rw [if_neg hc]
    exact ⟨inv, hcur⟩

/-- Reduction of `crawlStep` on an empty queue. -/
theorem crawlStep_nil {E : CrawlEnv} {cfg : CrawlConfig} {start_url : String}
    {st : CrawlState} (h : st.queue = []) : crawlStep E cfg start_url st = st := by
  unfold crawlStep
  rw [h]

/-- Reduction of `crawlStep` on a nonempty queue. -/
theorem crawlStep_cons {E : CrawlEnv} {cfg : CrawlConfig} {start_url : String}
    {st : CrawlState} {current_url : String} {depth : Nat} {rest : List (String × Nat)}
    (h : st.queue = (current_url, depth) :: rest) :
    crawlStep E cfg start_url st =
      (if cfg.max_depth ≤ depth then { st with queue := rest }
       else
         match E.fetchLinks current_url with
         | none => { st with queue := rest }
         | some hrefs =>
             hrefs.foldl (addLink E start_url current_url depth)
               { st with queue := rest }) := by
  unfold crawlStep
  rw [h]

/-- `crawlStep` preserves the loop invariant. -/
theorem crawlStep_inv {E : CrawlEnv} {cfg : CrawlConfig} {start_url : String}
    {st : CrawlState} (inv : CrawlInv cfg start_url st) :
    CrawlInv cfg start_url (crawlStep E cfg start_url st) := by
  cases hq : st.queue with
  | nil =>
    rw [crawlStep_nil hq]
    exact inv
  | cons front rest =>
    obtain ⟨current_url, depth⟩ := front
    rw [crawlStep_cons hq]
    have hcu : current_url ∈ st.visited :=
      inv.queue_vis (current_url, depth) (by rw [hq]; exact List.mem_cons_self _ _)
    have inv1 : CrawlInv cfg start_url { st with queue := rest } := by
      refine ⟨inv.visited_nodes, inv.nodup, inv.seed_first, inv.edges_to,
        inv.edges_from, ?_, ?_, inv.depths_fst, inv.depths_le⟩
      · intro p hp
        exact inv.queue_vis p (by rw [hq]; exact List.mem_cons_of_mem _ hp)
      · intro p hp
        exact inv.queue_depth p (by rw [hq]; exact List.mem_cons_of_mem _ hp)
    by_cases hd : cfg.max_depth ≤ depth
    · rw [if_pos hd]
      exact inv1
    · rw [if_neg hd]
      have hdep : depth < cfg.max_depth := Nat.not_le.mp hd
      cases hf : E.fetchLinks current_url with
      | none => exact inv1
      | some hrefs =>
        show CrawlInv cfg start_url
          (hrefs.foldl (addLink E start_url current_url depth) { st with queue := rest })
        exact (foldl_preserves (addLink E start_url current_url depth)
          (fun s => CrawlInv cfg start_url s ∧ current_url ∈ s.visited)
          (fun s a hs => addLink_inv a hs hdep) hrefs _ ⟨inv1, hcu⟩).1

/-- `crawlLoop` preserves the loop invariant for every fuel value. -/
theorem crawlLoop_inv {E : CrawlEnv} {cfg : CrawlConfig} {start_url : String} :
    ∀ (fuel : Nat) {st : CrawlState}, CrawlInv cfg start_url st →
      CrawlInv cfg start_url (crawlLoop E cfg start_url fuel st) := by
  intro fuel
  induction fuel with
  | zero => intro st inv; exact inv
  | succ n ih =>
    intro st inv
    rw [crawlLoop]
    by_cases hg : st.queue ≠ [] ∧ st.visited.length < cfg.max_pages_per_site
    · rw [if_pos hg]
      exact ih (crawlStep_inv inv)
    · rw [if_neg hg]
      exact inv

/-- The loop's initial state satisfies the invariant. -/
theorem initState_inv (cfg : CrawlConfig) (start_url : String) :
    CrawlInv cfg start_url (initState start_url) := by
  refine ⟨rfl, List.nodup_singleton _, ⟨[], rfl⟩, rfl, ?_, ?_, ?_, rfl, ?_⟩
  · intro k hk
    simp [initState] at hk
  · intro p hp
    simp only [initState, List.mem_singleton] at hp
    rw [hp]
    exact List.mem_singleton_self _
  · intro p hp
    simp only [initState, List.mem_singleton] at hp
    rw [hp]
    exact Nat.zero_le _
  · intro p hp
    simp only [initState, List.mem_singleton] at hp
    rw [hp]
    exact Nat.zero_le _

/-- A successful `crawl` returns the nodes and edges of the final loop
state, the company name, and the cleaned start URL. -/
theorem crawl_success_spec {E : CrawlEnv} {cfg : CrawlConfig} {fuel : Nat}
    {url name : String} {snap : Snapshot}
    (h : crawl E cfg fuel url name = .success snap) :
    snap.nodes = (crawlLoop E cfg (clean_url url) fuel (initState (clean_url url))).nodes ∧
    snap.edges = (crawlLoop E cfg (clean_url url) fuel (initState (clean_url url))).edges ∧
    snap.start_url = clean_url url ∧
    snap.company_name = name := by
  simp only [crawl] at h
  by_cases h1 : url = ""
  · rw [if_pos h1] at h
    cases h
  · rw [if_neg h1] at h
    by_cases h2 : is_valid_url (clean_url url) = true
    · rw [h2] at h
      simp only [Bool.not_true, Bool.false_eq_true, if_false] at h
      by_cases h3 : 0 <
          (crawlLoop E cfg (clean_url url) fuel (initState (clean_url url))).visited.length
      · rw [if_pos h3] at h
        cases h
        exact ⟨rfl, rfl, rfl, rfl⟩
      · rw [if_neg h3] at h
        cases h
    · rw [Bool.not_eq_true] at h2
      rw [h2] at h
      simp only [Bool.not_false, if_true] at h
      cases h

/-- One `addLink` grows the visited list by at most one and never shrinks
it. -/
theorem addLink_visited_le (E : CrawlEnv) (start_url current_url : String)
    (depth : Nat) (st : CrawlState) (href : String) :
    st.visited.length ≤ (addLink E start_url current_url depth st href).visited.length ∧
    (addLink E start_url current_url depth st href).visited.length ≤
      st.visited.length + 1 := by
  simp only [addLink]
  by_cases hc : (! st.visited.contains (clean_url (E.urljoin current_url href)) &&
      is_valid_url (clean_url (E.urljoin current_url href))) = true
  · rw [if_pos hc]
    constructor
    · show st.visited.length ≤
        (st.visited ++ [clean_url (E.urljoin current_url href)]).length
      rw [List.length_append, List.length_singleton]
      omega
    · show (st.visited ++ [clean_url (E.urljoin current_url href)]).length ≤
        st.visited.length + 1
      rw [List.length_append, List.length_singleton]
  · rw [if_neg hc]
    omega

/-- Folding `addLink` over a page's links grows the visited list by at most
the number of links and never shrinks it. -/
theorem foldl_addLink_visited (E : CrawlEnv) (start_url current_url : String)
    (depth : Nat) :
    ∀ (hrefs : List String) (st : CrawlState),
      st.visited.length ≤
          ((hrefs.foldl (addLink E start_url current_url depth) st)).visited.length ∧
      (hrefs.foldl (addLink E start_url current_url depth) st).visited.length ≤
          st.visited.length + hrefs.length := by
  intro hrefs
  induction hrefs with
  | nil => intro st; exact ⟨Nat.le_refl _, Nat.le_add_right _ _⟩
  | cons a t ih =>
    intro st
    have h1 := addLink_visited_le E start_url current_url depth st a
    have h2 := ih (addLink E start_url current_url depth st a)
    rw [List.foldl_cons]
    refine ⟨?_, ?_⟩
    · omega
    · simp only [List.length_cons]
      omega

/-- One `crawlStep` never shrinks the visited list. -/
theorem crawlStep_visited_mono (E : CrawlEnv) (cfg : CrawlConfig)
    (start_url : String) (st : CrawlState) :
    st.visited.length ≤ (crawlStep E cfg start_url st).visited.length := by
  cases hq : st.queue with
  | nil =>
    rw [crawlStep_nil hq]
  | cons front rest =>
    obtain ⟨current_url, depth⟩ := front
    rw [crawlStep_cons hq]
    by_cases hd : cfg.max_depth ≤ depth
    · rw [if_pos hd]
    · rw [if_neg hd]
      cases hf : E.fetchLinks current_url with
      | none => exact Nat.le_refl _
      | some hrefs =>
        show st.visited.length ≤
          (hrefs.foldl (addLink E start_url current_url depth)
            { st with queue := rest }).visited.length
        exact (foldl_addLink_visited E start_url current_url depth hrefs
          { st with queue := rest }).1

/-- One `crawlStep` grows the visited list by at most the page's link
count bound. -/
theorem crawlStep_visited_bound (E : CrawlEnv) (cfg : CrawlConfig)
    (start_url : String) (st : CrawlState) (L : Nat)
    (hL : ∀ u links, E.fetchLinks u = some links → links.length ≤ L) :
    (crawlStep E cfg start_url st).visited.length ≤ st.visited.length + L := by
  cases hq : st.queue with
  | nil =>
    rw [crawlStep_nil hq]
    omega
  | cons front rest =>
    obtain ⟨current_url, depth⟩ := front
    rw [crawlStep_cons hq]
    by_cases hd : cfg.max_depth ≤ depth
    · rw [if_pos hd]
      show st.visited.length ≤ st.visited.length + L
      omega
    · rw [if_neg hd]
      cases hf : E.fetchLinks current_url with
      | none =>
        show st.visited.length ≤ st.visited.length + L
        omega
      | some hrefs =>
        show (hrefs.foldl (addLink E start_url current_url depth)
            { st with queue := rest }).visited.length ≤ st.visited.length + L
        have h1 := (foldl_addLink_visited E start_url current_url depth hrefs
          { st with queue := rest }).2
        have h2 := hL current_url hrefs hf
        have h3 : ({ st with queue := rest } : CrawlState).visited.length =
            st.visited.length := rfl
        omega

/-- The loop keeps the visited list nonempty. -/
theorem crawlLoop_visited_pos (E : CrawlEnv) (cfg : CrawlConfig) (start_url : String) :
    ∀ (fuel : Nat) (st : CrawlState), 0 < st.visited.length →
      0 < (crawlLoop E cfg start_url fuel st).visited.length := by
  intro fuel
  induction fuel with
  | zero => intro st h; exact h
  | succ n ih =>
    intro st h
    rw [crawlLoop]
    by_cases hg : st.queue ≠ [] ∧ st.visited.length < cfg.max_pages_per_site
    · rw [if_pos hg]
      exact ih _ (Nat.lt_of_lt_of_le h (crawlStep_visited_mono E cfg start_url st))
    · rw [if_neg hg]
      exact h

/-- The loop keeps the visited count at most
`max 1 (max_pages_per_site - 1 + L)` when every fetched page yields at most
`L` links: expansion only starts below the page budget, and a single
expansion adds at most `L` URLs. -/
theorem crawlLoop_visited_bound (E : CrawlEnv) (cfg : CrawlConfig) (start_url : String)
    (L : Nat) (hL : ∀ u links, E.fetchLinks u = some links → links.length ≤ L) :
    ∀ (fuel : Nat) (st : CrawlState),
      st.visited.length ≤ max 1 (cfg.max_pages_per_site - 1 + L) →
      (crawlLoop E cfg start_url fuel st).visited.length ≤
        max 1 (cfg.max_pages_per_site - 1 + L) := by
  intro fuel
  induction fuel with
  | zero => intro st h; exact h
  | succ n ih =>
    intro st h
    rw [crawlLoop]
    by_cases hg : st.queue ≠ [] ∧ st.visited.length < cfg.max_pages_per_site
    · rw [if_pos hg]
      refine ih _ ?_
      have hstep := crawlStep_visited_bound E cfg start_url st L hL
      have hlt := hg.2
      omega
    · rw [if_neg hg]
      exact h

/-- The spanning-forest properties that follow from the loop invariant:
node ids are distinct, edge targets are exactly the non-seed node ids in
discovery order, every edge leaves an earlier-discovered node, every
non-seed node has exactly one inbound edge, and no edge enters the seed. -/
theorem CrawlInv.forest {cfg : CrawlConfig} {start_url : String} {st : CrawlState}
    (inv : CrawlInv cfg start_url st) :
    (st.nodes.map GNode.id).Nodup ∧
    st.edges.map GEdge.eto = (st.nodes.map GNode.id).drop 1 ∧
    (∀ k (hk : k < st.edges.length),
        (st.edges[k]).efrom ∈ (st.nodes.map GNode.id).take (k + 1)) ∧
    (∀ u ∈ st.nodes.map GNode.id, u ≠ start_url →
        (st.edges.filter (fun e => e.eto == u)).length = 1) ∧
    (∀ e ∈ st.edges, e.eto ≠ start_url) := by
  obtain ⟨t, ht⟩ := inv.seed_first
  rw [inv.visited_nodes]
  refine ⟨inv.nodup, inv.edges_to, inv.edges_from, ?_, ?_⟩
  · intro u hu hne
    have h1 : (st.edges.filter (fun e => e.eto == u)).length =
        List.countP (fun e => e.eto == u) st.edges :=
      (List.countP_eq_length_filter _ _).symm
    have h2 : List.countP (fun e => e.eto == u) st.edges =
        List.countP (fun x => x == u) (st.edges.map GEdge.eto) := by
      rw [List.countP_map]
      rfl
    have h3 : List.countP (fun x => x == u) (st.edges.map GEdge.eto) = List.count u t := by
      rw [inv.edges_to, ht, ← List.count_eq_countP]
      rfl
    have hnodup := inv.nodup
    rw [ht] at hnodup hu
    have hut : u ∈ t := by
      rcases List.mem_cons.mp hu with h | h
      · exact absurd h hne
      · exact h
    have h4 : List.count u t = 1 :=
      List.count_eq_one_of_mem (List.nodup_cons.mp hnodup).2 hut
    omega
  · intro e he heq
    have hmem : e.eto ∈ st.edges.map GEdge.eto := List.mem_map_of_mem _ he
    rw [inv.edges_to, ht] at hmem
    have hnodup := inv.nodup
    rw [ht] at hnodup
    exact (List.nodup_cons.mp hnodup).1 (heq ▸ hmem)

/-! ## Concrete environments, configurations and snapshots -/

/-- Oracle whose every fetch fails. -/
def envNone : CrawlEnv :=
  { fetchLinks := fun _ => none
    urljoin := fun _ href => href }

/-- Oracle where only the seed page responds, yielding two absolute links. -/
def envTwoLinks : CrawlEnv :=
  { fetchLinks := fun u =>
      if u = ("https://s.com") then some [("https://a.com"), ("https://b.com")]
      else none
    urljoin := fun _ href => href }

/-- Configuration with a page budget of two. -/
def cfgPages2 : CrawlConfig := { max_depth := 5, max_pages_per_site := 2, delay := 1 }

/-- Configuration with the crawler's default bounds. -/
def cfgDefault : CrawlConfig := { max_depth := 5, max_pages_per_site := 100, delay := 1 }

/-- The snapshot of a crawl of `"https://s.com"` whose seed fetch fails. -/
def snapSeedOnly : Snapshot :=
  { nodes := [{ id := ("https://s.com")
                label := ("s.com")
                title := ("https://s.com")
                color := ("#97c2fc") }]
    edges := []
    company_name := ("Acme")
    start_url := ("https://s.com") }

/-- The snapshot of a crawl of `"https://s.com"` under `envTwoLinks`. -/
def snapTwoLinks : Snapshot :=
  { nodes := [{ id := ("https://s.com")
                label := ("s.com")
                title := ("https://s.com")
                color := ("#97c2fc") },
              { id := ("https://a.com")
                label := ("a.com")
                title := ("https://a.com")
                color := ("#ffa07a") },
              { id := ("https://b.com")
                label := ("b.com")
                title := ("https://b.com")
                color := ("#ffa07a") }]
    edges := [{ efrom := ("https://s.com")
                eto := ("https://a.com")
                title := ("https://s.com → https://a.com") },
              { efrom := ("https://s.com")
                eto := ("https://b.com")
                title := ("https://s.com → https://b.com") }]
    company_name := ("Acme")
    start_url := ("https://s.com") }

/-- A crawl state whose single queue entry sits at depth 5. -/
def stDeep : CrawlState :=
  { queue := [(("https://x.org"), 5)]
    visited := [("https://x.org")]
    nodes := []
    edges := []
    nodeDepths := [(("https://x.org"), 0)] }

/-! ## Claim C1 -/

/-- C1 (counterexample): with `maxPages = 2` a crawl whose seed page yields
two links produces a snapshot with 3 nodes — the page budget is checked
only at the top of the loop, so the last expanded page can push the node
count past the budget. -/
theorem c1_counterexample_page_budget_exceeded :
    crawl envTwoLinks cfgPages2 3 ("https://s.com") ("Acme") = .success snapTwoLinks ∧
    snapTwoLinks.nodes.length = 3 ∧
    cfgPages2.max_pages_per_site = 2 := by
  exact ⟨by decide, by decide, by decide⟩

/-- C1 (amended): when every fetched page yields at most `L` links, a crawl
with `maxPages = P` produces at most `max 1 (P - 1 + L)` nodes; the budget
`P` itself can be exceeded only by the links of the last expanded page. -/
theorem c1_amended_nodes_bound (E : CrawlEnv) (cfg : CrawlConfig) (fuel : Nat)
    (url name : String) (L : Nat) (snap : Snapshot)
    (hL : ∀ u links, E.fetchLinks u = some links → links.length ≤ L)
    (h : crawl E cfg fuel url name = .success snap) :
    snap.nodes.length ≤ max 1 (cfg.max_pages_per_site - 1 + L) := by
  obtain ⟨hn, _, _, _⟩ := crawl_success_spec h
  have inv := crawlLoop_inv (E := E) fuel (initState_inv cfg (clean_url url))
  have hlen : snap.nodes.length =
      (crawlLoop E cfg (clean_url url) fuel (initState (clean_url url))).visited.length := by
    rw [hn, ← inv.visited_nodes, List.length_map]
  rw [hlen]
  exact crawlLoop_visited_bound E cfg (clean_url url) L hL fuel _ (le_max_left 1 _)

/-- C1 (witness): the amended bound applied to a crawl with failing
fetches, page budget 2 and link bound 1. -/
theorem c1_witness :
    snapSeedOnly.nodes.length ≤ max 1 (cfgPages2.max_pages_per_site - 1 + 1) :=
  c1_amended_nodes_bound envNone cfgPages2 1 ("https://s.com") ("Acme") 1 snapSeedOnly
    (fun _ _ hl => Option.noConfusion hl) (by decide)

/-! ## Claim C2 -/

/-- C2: a crawl whose seed passes the empty check and URL validation always
reports success with a persisted snapshot, for every fetch oracle — the
seed is inserted into the visited set before the loop, so the
`"No pages crawled"` branch is unreachable. -/
theorem c2_validated_seed_always_succeeds (E : CrawlEnv) (cfg : CrawlConfig)
    (fuel : Nat) (url name : String)
    (h1 : url ≠ "") (h2 : is_valid_url (clean_url url) = true) :
    ∃ snap, crawl E cfg fuel url name = .success snap := by
  refine ⟨⟨(crawlLoop E cfg (clean_url url) fuel (initState (clean_url url))).nodes,
           (crawlLoop E cfg (clean_url url) fuel (initState (clean_url url))).edges,
           name, clean_url url⟩, ?_⟩
  simp only [crawl]
  rw [if_neg h1, h2]
  simp only [Bool.not_true, Bool.false_eq_true, if_false]
  rw [if_pos (crawlLoop_visited_pos E cfg (clean_url url) fuel
    (initState (clean_url url)) (by exact Nat.one_pos))]

/-- C2 (witness): a validated seed whose every fetch fails still succeeds. -/
theorem c2_witness :
    (("https://s.com") ≠ "" ∧ is_valid_url (clean_url ("https://s.com")) = true) ∧
    (∃ snap, crawl envNone cfgDefault 1 ("https://s.com") ("Acme") = .success snap) :=
  ⟨⟨by decide, by decide⟩,
    c2_validated_seed_always_succeeds envNone cfgDefault 1 ("https://s.com") ("Acme")
      (by decide) (by decide)⟩

/-! ## Claim C5 -/

/-- C5: in every successful crawl snapshot, node ids are pairwise distinct,
the edge targets are exactly the non-seed node ids in discovery order (so
each non-seed node has exactly one inbound edge, created at its discovery),
every edge leaves a node discovered strictly before its target, and no
edge enters the seed: the snapshot is a rooted spanning forest. -/
theorem c5_snapshot_spanning_forest (E : CrawlEnv) (cfg : CrawlConfig) (fuel : Nat)
    (url name : String) (snap : Snapshot)
    (h : crawl E cfg fuel url name = .success snap) :
    (snap.nodes.map GNode.id).Nodup ∧
    snap.edges.map GEdge.eto = (snap.nodes.map GNode.id).drop 1 ∧
    (∀ k (hk : k < snap.edges.length),
        (snap.edges[k]).efrom ∈ (snap.nodes.map GNode.id).take (k + 1)) ∧
    (∀ u ∈ snap.nodes.map GNode.id, u ≠ snap.start_url →
        (snap.edges.filter (fun e => e.eto == u)).length = 1) ∧
    (∀ e ∈ snap.edges, e.eto ≠ snap.start_url) := by
  obtain ⟨hn, he, hs, _⟩ := crawl_success_spec h
  have inv := crawlLoop_inv (E := E) fuel (initState_inv cfg (clean_url url))
  rw [hn, he, hs]
  exact inv.forest

/-- C5 (witness): the spanning-forest properties at a concrete two-link
crawl. -/
theorem c5_witness :
    (crawl envTwoLinks cfgDefault 3 ("https://s.com") ("Acme") = .success snapTwoLinks) ∧
    ((snapTwoLinks.nodes.map GNode.id).Nodup ∧
     snapTwoLinks.edges.map GEdge.eto = (snapTwoLinks.nodes.map GNode.id).drop 1 ∧
     (∀ k (hk : k < snapTwoLinks.edges.length),
         (snapTwoLinks.edges[k]).efrom ∈ (snapTwoLinks.nodes.map GNode.id).take (k + 1)) ∧
     (∀ u ∈ snapTwoLinks.nodes.map GNode.id, u ≠ snapTwoLinks.start_url →
         (snapTwoLinks.edges.filter (fun e => e.eto == u)).length = 1) ∧
     (∀ e ∈ snapTwoLinks.edges, e.eto ≠ snapTwoLinks.start_url)) :=
  ⟨by decide,
    c5_snapshot_spanning_forest envTwoLinks cfgDefault 3 ("https://s.com") ("Acme")
      snapTwoLinks (by decide)⟩

/-! ## Claim C6 -/

/-- C6: every recorded node depth is at most `max_depth` (and the recorded
depths cover exactly the snapshot's nodes), and a queue entry at depth
`≥ max_depth` is popped without being expanded — it contributes no nodes,
edges, or queue entries. -/
theorem c6_depth_bounds (E : CrawlEnv) (cfg : CrawlConfig) (fuel : Nat)
    (start_url : String) :
    (∀ p ∈ (crawlLoop E cfg start_url fuel (initState start_url)).nodeDepths,
        p.2 ≤ cfg.max_depth) ∧
    ((crawlLoop E cfg start_url fuel (initState start_url)).nodeDepths.map Prod.fst =
        (crawlLoop E cfg start_url fuel (initState start_url)).nodes.map GNode.id) ∧
    (∀ (st : CrawlState) (u : String) (d : Nat) (rest : List (String × Nat)),
        st.queue = (u, d) :: rest → cfg.max_depth ≤ d →
        crawlStep E cfg start_url st = { st with queue := rest }) := by
  have inv := crawlLoop_inv (E := E) fuel (initState_inv cfg start_url)
  refine ⟨inv.depths_le, ?_, ?_⟩
  · rw [inv.depths_fst, inv.visited_nodes]
  · intro st u d rest hq hd
    rw [crawlStep_cons hq, if_pos hd]

/-- C6 (witness): the depth bound at a concrete crawl, and the
non-expansion of a depth-5 queue entry under `max_depth = 5`. -/
theorem c6_witness :
    ((("https://s.com"), 0).2 ≤ cfgPages2.max_depth ∧
     crawlStep envNone cfgPages2 ("https://s.com") stDeep = { stDeep with queue := [] }) :=
  ⟨(c6_depth_bounds envNone cfgPages2 1 ("https://s.com")).1 (("https://s.com"), 0)
      (by decide),
   (c6_depth_bounds envNone cfgPages2 1 ("https://s.com")).2.2 stDeep ("https://x.org") 5 []
      rfl (by decide)⟩

/-! ## Aggregator reduction equations -/

/-- An edge not leaving the current node is skipped. -/
theorem processNodeEdges_not_from {su sd : String} {st : AggState} {e : GEdge}
    (h : (e.efrom == su) = false) : processNodeEdges su sd st e = st := by
  unfold processNodeEdges
  simp [h]

/-- An edge whose target URL fails to parse is skipped. -/
theorem processNodeEdges_none {su sd : String} {st : AggState} {e : GEdge}
    (h1 : (e.efrom == su) = true) (h2 : extract_domain e.eto = none) :
    processNodeEdges su sd st e = st := by
  unfold processNodeEdges
  simp [h1, h2]

/-- An edge whose target domain is empty or whose target URL is excluded is
skipped. -/
theorem processNodeEdges_skip {su sd td : String} {st : AggState} {e : GEdge}
    (h1 : (e.efrom == su) = true) (h2 : extract_domain e.eto = some td)
    (h3 : (td == ("") || is_excluded_domain e.eto) = true) :
    processNodeEdges su sd st e = st := by
  unfold processNodeEdges
  simp [h1, h2, h3]

/-- A qualifying edge records its target domain under the source domain. -/
theorem processNodeEdges_add {su sd td : String} {st : AggState} {e : GEdge}
    (h1 : (e.efrom == su) = true) (h2 : extract_domain e.eto = some td)
    (h3 : (td == ("") || is_excluded_domain e.eto) = false) :
    processNodeEdges su sd st e =
      { st with cross_connections := addToMap st.cross_connections sd td
                crossKeys := insert sd st.crossKeys } := by
  unfold processNodeEdges
  simp [h1, h2, h3]

/-- A node whose URL fails to parse is skipped. -/
theorem processNode_none {cn : String} {edges : List GEdge} {st : AggState} {node : GNode}
    (h : extract_domain node.id = none) : processNode cn edges st node = st := by
  unfold processNode
  simp [h]

/-- A node with an empty domain or an excluded URL is skipped. -/
theorem processNode_skip {cn sd : String} {edges : List GEdge} {st : AggState}
    {node : GNode} (hx : extract_domain node.id = some sd)
    (h : (sd == ("") || is_excluded_domain node.id) = true) :
    processNode cn edges st node = st := by
  unfold processNode
  simp [hx, h]

/-- A qualifying node adds its company to the domain's ownership set and
then runs the edge loop. -/
theorem processNode_active {cn sd : String} {edges : List GEdge} {st : AggState}
    {node : GNode} (hx : extract_domain node.id = some sd)
    (h : (sd == ("") || is_excluded_domain node.id) = false) :
    processNode cn edges st node =
      edges.foldl (processNodeEdges node.id sd)
        { st with domain_to_companies := addToMap st.domain_to_companies sd cn
                  domainKeys := insert sd st.domainKeys } := by
  unfold processNode
  simp [hx, h]

/-- The edge loop never changes the ownership map. -/
theorem processNodeEdges_ownership (su sd : String) (st : AggState) (e : GEdge) :
    (processNodeEdges su sd st e).domain_to_companies = st.domain_to_companies := by
  by_cases h1 : (e.efrom == su) = true
  · cases h2 : extract_domain e.eto with
    | none => rw [processNodeEdges_none h1 h2]
    | some td =>
      by_cases h3 : (td == ("") || is_excluded_domain e.eto) = true
      · rw [processNodeEdges_skip h1 h2 h3]
      · rw [processNodeEdges_add h1 h2 (Bool.not_eq_true _ |>.mp h3)]
  · rw [processNodeEdges_not_from (Bool.not_eq_true _ |>.mp h1)]

/-- Folding the edge loop never changes the ownership map. -/
theorem foldl_processNodeEdges_ownership (su sd : String) :
    ∀ (edges : List GEdge) (st : AggState),
      (edges.foldl (processNodeEdges su sd) st).domain_to_companies =
        st.domain_to_companies := by
  intro edges
  induction edges with
  | nil => intro st; rfl
  | cons e t ih =>
    intro st
    rw [List.foldl_cons, ih, processNodeEdges_ownership]

/-- Ownership membership is monotone under node processing. -/
theorem processNode_ownership_mono {cn : String} {edges : List GEdge} {st : AggState}
    {node : GNode} {d x : String} (hx : x ∈ st.domain_to_companies d) :
    x ∈ (processNode cn edges st node).domain_to_companies d := by
  cases he : extract_domain node.id with
  | none =>
    rw [processNode_none he]
    exact hx
  | some sd =>
    by_cases hc : (sd == ("") || is_excluded_domain node.id) = true
    · rw [processNode_skip he hc]
      exact hx
    · rw [processNode_active he (Bool.not_eq_true _ |>.mp hc),
        foldl_processNodeEdges_ownership]
      show x ∈ addToMap st.domain_to_companies sd cn d
      unfold addToMap
      by_cases hd : d = sd
      · rw [if_pos hd]
        exact Finset.mem_insert_of_mem hx
      · rw [if_neg hd]
        exact hx

/-- Node processing only ever inserts the processed company. -/
theorem processNode_ownership_sub {cn : String} {edges : List GEdge} {st : AggState}
    {node : GNode} {d x : String}
    (hx : x ∈ (processNode cn edges st node).domain_to_companies d) :
    x ∈ st.domain_to_companies d ∨ x = cn := by
  cases he : extract_domain node.id with
  | none =>
    rw [processNode_none he] at hx
    exact Or.inl hx
  | some sd =>
    by_cases hc : (sd == ("") || is_excluded_domain node.id) = true
    · rw [processNode_skip he hc] at hx
      exact Or.inl hx
    · rw [processNode_active he (Bool.not_eq_true _ |>.mp hc),
        foldl_processNodeEdges_ownership] at hx
      have hx2 : x ∈ addToMap st.domain_to_companies sd cn d := hx
      unfold addToMap at hx2
      by_cases hd : d = sd
      · rw [if_pos hd] at hx2
        rcases Finset.mem_insert.mp hx2 with h | h
        · exact Or.inr h
        · exact Or.inl h
      · rw [if_neg hd] at hx2
        exact Or.inl hx2

/-- A qualifying node with domain `d` adds its company to
`DomainOwnership[d]`. -/
theorem processNode_ownership_add {cn : String} {edges : List GEdge} {st : AggState}
    {node : GNode} {d : String}
    (hd : extract_domain node.id = some d) (hne : d ≠ "")
    (hex : is_excluded_domain node.id = false) :
    cn ∈ (processNode cn edges st node).domain_to_companies d := by
  have hcond : (d == ("") || is_excluded_domain node.id) = false := by
    rw [hex]
    simp [hne]
  rw [processNode_active hd hcond, foldl_processNodeEdges_ownership]
  show cn ∈ addToMap st.domain_to_companies d cn d
  unfold addToMap
  rw [if_pos rfl]
  exact Finset.mem_insert_self _ _

/-- Ownership membership is monotone under processing a snapshot. -/
theorem pcd_ownership_mono {st : AggState} {cn : String} {s : Snapshot}
    {d x : String} (hx : x ∈ st.domain_to_companies d) :
    x ∈ (process_company_data st cn s).domain_to_companies d := by
  unfold process_company_data
  exact foldl_preserves (processNode cn s.edges)
    (fun a => x ∈ a.domain_to_companies d)
    (fun a n ha => processNode_ownership_mono ha) s.nodes st hx

/-- Processing a snapshot only ever inserts that snapshot's company. -/
theorem pcd_ownership_sub {cn : String} {d x : String} :
    ∀ (nodes : List GNode) (edges : List GEdge) (st : AggState),
      x ∈ (nodes.foldl (processNode cn edges) st).domain_to_companies d →
      x ∈ st.domain_to_companies d ∨ x = cn := by
  intro nodes
  induction nodes with
  | nil => intro edges st hx; exact Or.inl hx
  | cons n t ih =>
    intro edges st hx
    rw [List.foldl_cons] at hx
    rcases ih edges _ hx with h | h
    · exact processNode_ownership_sub h
    · exact Or.inr h

/-- A snapshot containing a qualifying node with domain `d` makes its
company an owner of `d`. -/
theorem pcd_ownership_add {cn : String} {d : String} :
    ∀ (nodes : List GNode) (edges : List GEdge) (st : AggState),
      (∃ n ∈ nodes, extract_domain n.id = some d ∧ is_excluded_domain n.id = false) →
      d ≠ "" →
      cn ∈ (nodes.foldl (processNode cn edges) st).domain_to_companies d := by
  intro nodes
  induction nodes with
  | nil =>
    intro edges st hex hne
    obtain ⟨n, hn, _⟩ := hex
    cases hn
  | cons n t ih =>
    intro edges st hex hne
    rw [List.foldl_cons]
    obtain ⟨m, hm, hmd, hmex⟩ := hex
    rcases List.mem_cons.mp hm with hm1 | hm1
    · subst hm1
      exact foldl_preserves (processNode cn edges)
        (fun a => cn ∈ a.domain_to_companies d)
        (fun a nd ha => processNode_ownership_mono ha) t _
        (processNode_ownership_add hmd hne hmex)
    · exact ih edges _ ⟨m, hm1, hmd, hmex⟩ hne

/-- Every materialised `cross_connections` key has non-empty ownership. -/
def OwnedKeys (st : AggState) : Prop :=
  ∀ d ∈ st.crossKeys, st.domain_to_companies d ≠ ∅

/-- Map insertion preserves non-emptiness of every entry. -/
theorem addToMap_ne_empty {m : String → Finset String} {k v d : String}
    (h : m d ≠ ∅) : addToMap m k v d ≠ ∅ := by
  unfold addToMap
  by_cases hd : d = k
  · rw [if_pos hd]
    exact Finset.insert_ne_empty _ _
  · rw [if_neg hd]
    exact h

/-- The edge loop preserves `OwnedKeys` when the source domain is owned. -/
theorem processNodeEdges_ownedKeys {su sd : String} {st : AggState} {e : GEdge}
    (h : OwnedKeys st ∧ st.domain_to_companies sd ≠ ∅) :
    OwnedKeys (processNodeEdges su sd st e) ∧
      (processNodeEdges su sd st e).domain_to_companies sd ≠ ∅ := by
  obtain ⟨hP, hsd⟩ := h
  constructor
  · intro d hd
    rw [processNodeEdges_ownership]
    by_cases h1 : (e.efrom == su) = true
    · cases h2 : extract_domain e.eto with
      | none =>
        rw [processNodeEdges_none h1 h2] at hd
        exact hP d hd
      | some td =>
        by_cases h3 : (td == ("") || is_excluded_domain e.eto) = true
        · rw [processNodeEdges_skip h1 h2 h3] at hd
          exact hP d hd
        · rw [processNodeEdges_add h1 h2 (Bool.not_eq_true _ |>.mp h3)] at hd
          rcases Finset.mem_insert.mp hd with h4 | h4
          · rw [h4]
            exact hsd
          · exact hP d h4
    · rw [processNodeEdges_not_from (Bool.not_eq_true _ |>.mp h1)] at hd
      exact hP d hd
  · rw [processNodeEdges_ownership]
    exact hsd

/-- Node processing preserves `OwnedKeys`: a cross-connection key is only
created for the domain whose ownership set was just extended. -/
theorem processNode_ownedKeys {cn : String} {edges : List GEdge} {st : AggState}
    {node : GNode} (h : OwnedKeys st) : OwnedKeys (processNode cn edges st node) := by
  cases he : extract_domain node.id with
  | none =>
    rw [processNode_none he]
    exact h
  | some sd =>
    by_cases hc : (sd == ("") || is_excluded_domain node.id) = true
    · rw [processNode_skip he hc]
      exact h
    · rw [processNode_active he (Bool.not_eq_true _ |>.mp hc)]
      refine (foldl_preserves (processNodeEdges node.id sd)
        (fun a => OwnedKeys a ∧ a.domain_to_companies sd ≠ ∅)
        (fun a ed ha => processNodeEdges_ownedKeys ha) edges _ ⟨?_, ?_⟩).1
      · intro d hd
        exact addToMap_ne_empty (h d hd)
      · show addToMap st.domain_to_companies sd cn sd ≠ ∅
        unfold addToMap
        rw [if_pos rfl]
        exact Finset.insert_ne_empty _ _

/-- The full aggregation run satisfies `OwnedKeys`. -/
theorem process_all_ownedKeys (corpus : List Snapshot) :
    OwnedKeys (process_all_companies corpus) := by
  unfold process_all_companies
  refine foldl_preserves _ OwnedKeys (fun st s hs => ?_) corpus initAggState ?_
  · unfold process_company_data
    exact foldl_preserves (processNode s.company_name s.edges) OwnedKeys
      (fun a n ha => processNode_ownedKeys ha) s.nodes st hs
  · intro d hd
    exact absurd hd (Finset.not_mem_empty d)

/-! ## Concrete snapshots for the aggregator -/

/-- Snapshot of entity `"Acme"`: seed node, one shared node, one edge. -/
def snapAcme : Snapshot :=
  { nodes := [{ id := ("https://acme.test")
                label := ("acme.test")
                title := ("https://acme.test")
                color := ("#97c2fc") },
              { id := ("https://shared.example")
                label := ("shared.example")
                title := ("https://shared.example")
                color := ("#ffa07a") }]
    edges := [{ efrom := ("https://acme.test")
                eto := ("https://shared.example")
                title := ("https://acme.test → https://shared.example") }]
    company_name := ("Acme")
    start_url := ("https://acme.test") }

/-- Snapshot of entity `"Globex"`: seed node, one shared node, one edge. -/
def snapGlobex : Snapshot :=
  { nodes := [{ id := ("https://globex.test")
                label := ("globex.test")
                title := ("https://globex.test")
                color := ("#97c2fc") },
              { id := ("https://shared.example")
                label := ("shared.example")
                title := ("https://shared.example")
                color := ("#ffa07a") }]
    edges := [{ efrom := ("https://globex.test")
                eto := ("https://shared.example")
                title := ("https://globex.test → https://shared.example") }]
    company_name := ("Globex")
    start_url := ("https://globex.test") }

/-- Snapshot with a single node and no edges at all. -/
def snapLeafOnly : Snapshot :=
  { nodes := [{ id := ("https://acme.test")
                label := ("acme.test")
                title := ("https://acme.test")
                color := ("#97c2fc") }]
    edges := []
    company_name := ("Acme")
    start_url := ("https://acme.test") }

/-- Snapshot with an intra-domain edge (`a.com` links to itself). -/
def snapSelfLink : Snapshot :=
  { nodes := [{ id := ("https://a.com/q")
                label := ("a.com")
                title := ("https://a.com/q")
                color := ("#97c2fc") }]
    edges := [{ efrom := ("https://a.com/q")
                eto := ("https://a.com/r")
                title := ("https://a.com/q → https://a.com/r") }]
    company_name := ("Acme")
    start_url := ("https://a.com/q") }

/-! ## Claim C3 -/

/-- C3 (counterexample): a corpus with one snapshot containing a single
non-excluded node and no edges gives the node's domain non-empty ownership,
yet the emitted cross-entity graph has no node at all — emission iterates
only over recorded cross-connections. -/
theorem c3_counterexample_owned_domain_not_emitted :
    (process_all_companies [snapLeafOnly]).domain_to_companies ("acme.test") ≠ ∅ ∧
    emittedNodeDomains (process_all_companies [snapLeafOnly]) = ∅ := by
  exact ⟨by decide, by decide⟩

/-- C3 (amended): the emitted graph contains a node for every
cross-connection source and for every cross-connection target with
non-empty ownership; every emitted node has non-empty ownership (a domain
with ownership but no recorded cross-connection in either direction gets no
node); and every emitted edge `from → to` has `to` with non-empty
ownership, with `from` a recorded source and `to` one of its recorded
targets. -/
theorem c3_amended_emission (corpus : List Snapshot) :
    (∀ d ∈ (process_all_companies corpus).crossKeys,
        d ∈ emittedNodeDomains (process_all_companies corpus)) ∧
    (∀ s ∈ (process_all_companies corpus).crossKeys,
      ∀ t ∈ (process_all_companies corpus).cross_connections s,
        (process_all_companies corpus).domain_to_companies t ≠ ∅ →
        t ∈ emittedNodeDomains (process_all_companies corpus)) ∧
    (∀ d ∈ emittedNodeDomains (process_all_companies corpus),
        (process_all_companies corpus).domain_to_companies d ≠ ∅) ∧
    (∀ p ∈ emittedEdges (process_all_companies corpus),
        (process_all_companies corpus).domain_to_companies p.2 ≠ ∅ ∧
        p.1 ∈ (process_all_companies corpus).crossKeys ∧
        p.2 ∈ (process_all_companies corpus).cross_connections p.1) := by
  have hok := process_all_ownedKeys corpus
  refine ⟨?_, ?_, ?_, ?_⟩
  · intro d hd
    unfold emittedNodeDomains
    exact Finset.mem_union_left _ hd
  · intro s hs t ht hne
    unfold emittedNodeDomains
    refine Finset.mem_union_right _ ?_
    rw [Finset.mem_biUnion]
    exact ⟨s, hs, Finset.mem_filter.mpr ⟨ht, hne⟩⟩
  · intro d hd
    unfold emittedNodeDomains at hd
    rcases Finset.mem_union.mp hd with h | h
    · exact hok d h
    · rw [Finset.mem_biUnion] at h
      obtain ⟨s, hs, hf⟩ := h
      exact (Finset.mem_filter.mp hf).2
  · intro p hp
    unfold emittedEdges at hp
    rw [Finset.mem_biUnion] at hp
    obtain ⟨s, hs, hf⟩ := hp
    rw [Finset.mem_image] at hf
    obtain ⟨t, htf, hpt⟩ := hf
    have hft := Finset.mem_filter.mp htf
    cases hpt
    exact ⟨hft.2.1, hs, hft.1⟩

/-- C3 (witness): emission facts at a concrete one-snapshot corpus. -/
theorem c3_witness :
    ("acme.test") ∈ emittedNodeDomains (process_all_companies [snapAcme]) ∧
    (process_all_companies [snapAcme]).domain_to_companies ("shared.example") ≠ ∅ :=
  ⟨(c3_amended_emission [snapAcme]).1 ("acme.test") (by decide),
   (c3_amended_emission [snapAcme]).2.2.1 ("shared.example") (by decide)⟩

/-! ## Claim C8 -/

/-- C8: aggregating exactly the snapshots of two distinct entities that
each contain a non-excluded node with domain `d` yields
`DomainOwnership[d] = {A, B}`, weight 2, classification shared (the node,
when emitted, is blue with size 30); a domain owned by exactly one entity
is classified exclusive. -/
theorem c8_shared_domain (sa sb : Snapshot) (d : String)
    (hAB : sa.company_name ≠ sb.company_name)
    (ha : ∃ n ∈ sa.nodes, extract_domain n.id = some d ∧ is_excluded_domain n.id = false)
    (hb : ∃ n ∈ sb.nodes, extract_domain n.id = some d ∧ is_excluded_domain n.id = false)
    (hd : d ≠ "") :
    (process_all_companies [sa, sb]).domain_to_companies d =
      {sa.company_name, sb.company_name} ∧
    domainWeight (process_all_companies [sa, sb]) d = 2 ∧
    isSharedDomain (process_all_companies [sa, sb]) d = true ∧
    visNodeFor (process_all_companies [sa, sb]) d =
      { domain := d, size := 30, color := ("#1f77b4") } ∧
    (∀ (st : AggState) (d2 : String), domainWeight st d2 = 1 →
        isSharedDomain st d2 = false) := by
  have hstep : process_all_companies [sa, sb] =
      process_company_data (process_company_data initAggState sa.company_name sa)
        sb.company_name sb := rfl
  have hset : (process_all_companies [sa, sb]).domain_to_companies d =
      {sa.company_name, sb.company_name} := by
    apply Finset.ext
    intro x
    constructor
    · intro hx
      rw [hstep] at hx
      unfold process_company_data at hx
      rcases pcd_ownership_sub _ _ _ hx with h | h
      · rcases pcd_ownership_sub _ _ _ h with h2 | h2
        · exact absurd h2 (Finset.not_mem_empty x)
        · rw [h2]
          exact Finset.mem_insert_self _ _
      · rw [h]
        exact Finset.mem_insert_of_mem (Finset.mem_singleton_self _)
    · intro hx
      rcases Finset.mem_insert.mp hx with h | h
      · rw [h, hstep]
        apply pcd_ownership_mono
        unfold process_company_data
        exact pcd_ownership_add sa.nodes sa.edges _ ha hd
      · rw [Finset.mem_singleton.mp h, hstep]
        unfold process_company_data
        exact pcd_ownership_add sb.nodes sb.edges _ hb hd
  have hA_notin : sa.company_name ∉ ({sb.company_name} : Finset String) := by
    rw [Finset.mem_singleton]
    exact hAB
  have hcard : ({sa.company_name, sb.company_name} : Finset String).card = 2 := by
    rw [Finset.card_insert_of_not_mem hA_notin, Finset.card_singleton]
  have hw : domainWeight (process_all_companies [sa, sb]) d = 2 := by
    unfold domainWeight
    rw [hset, hcard]
  refine ⟨hset, hw, ?_, ?_, ?_⟩
  · unfold isSharedDomain
    rw [hw]
    decide
  · simp only [visNodeFor]
    rw [hset, hcard]
    rw [show 20 + 2 * 5 = 30 from by decide,
        show (if 1 < 2 then ("#1f77b4") else ("#7f7f7f")) = ("#1f77b4") from by decide]
  · intro st d2 h1
    unfold isSharedDomain
    rw [h1]
    decide

/-- C8 (witness): the shared-domain facts at the Acme/Globex corpus. -/
theorem c8_witness :
    (process_all_companies [snapAcme, snapGlobex]).domain_to_companies
        ("shared.example") = {snapAcme.company_name, snapGlobex.company_name} ∧
    domainWeight (process_all_companies [snapAcme, snapGlobex]) ("shared.example") = 2 ∧
    isSharedDomain (process_all_companies [snapAcme, snapGlobex]) ("shared.example") =
      true :=
  ⟨(c8_shared_domain snapAcme snapGlobex ("shared.example") (by decide) (by decide)
      (by decide) (by decide)).1,
   (c8_shared_domain snapAcme snapGlobex ("shared.example") (by decide) (by decide)
      (by decide) (by decide)).2.1,
   (c8_shared_domain snapAcme snapGlobex ("shared.example") (by decide) (by decide)
      (by decide) (by decide)).2.2.1⟩

/-! ## Claim C10 -/

/-- C10: the emitted cross-entity graph never contains a self-loop, even
when the cross-connection map records a domain as a target of itself; at a
concrete corpus with an intra-domain crawl edge, the self-connection is
recorded in the map and counted in the `total_connections` statistic but no
edge is emitted. -/
theorem c10_no_self_loop :
    (∀ (corpus : List Snapshot) (p : String × String),
        p ∈ emittedEdges (process_all_companies corpus) → p.1 ≠ p.2) ∧
    (("a.com") ∈ (process_all_companies [snapSelfLink]).cross_connections ("a.com") ∧
     total_connections (process_all_companies [snapSelfLink]) = 1 ∧
     emittedEdges (process_all_companies [snapSelfLink]) = ∅) := by
  constructor
  · intro corpus p hp
    unfold emittedEdges at hp
    rw [Finset.mem_biUnion] at hp
    obtain ⟨s, hs, hf⟩ := hp
    rw [Finset.mem_image] at hf
    obtain ⟨t, htf, hpt⟩ := hf
    have hft := Finset.mem_filter.mp htf
    cases hpt
    exact hft.2.2
  · exact ⟨by decide, by decide, by decide⟩

/-- C10 (witness): the no-self-loop theorem applied to a concrete emitted
edge. -/
theorem c10_witness :
    (("acme.test"), ("shared.example")) ∈
        emittedEdges (process_all_companies [snapAcme]) ∧
    ("acme.test") ≠ ("shared.example") :=
  ⟨by decide,
   c10_no_self_loop.1 [snapAcme] ((("acme.test"), ("shared.example"))) (by decide)⟩

/-! ## Claim C7 -/

/-- Removal of excluded material from a snapshot: drop every node whose URL
matches an exclusion pattern and every edge either of whose endpoint URLs
matches one. -/
def filterSnapshot (s : Snapshot) : Snapshot :=
  { s with
    nodes := s.nodes.filter (fun n => ! is_excluded_domain n.id)
    edges := s.edges.filter
      (fun e => ! is_excluded_domain e.efrom && ! is_excluded_domain e.eto) }

/-- An edge with an excluded endpoint is skipped by the edge loop of a
non-excluded source node. -/
theorem processNodeEdges_excluded {su sd : String} {st : AggState} {e : GEdge}
    (hsu : is_excluded_domain su = false)
    (hor : is_excluded_domain e.efrom = true ∨ is_excluded_domain e.eto = true) :
    processNodeEdges su sd st e = st := by
  rcases hor with hf | ht
  · apply processNodeEdges_not_from
    rw [beq_eq_false_iff_ne]
    intro heq
    rw [heq, hsu] at hf
    cases hf
  · by_cases hfr : (e.efrom == su) = true
    · cases hx : extract_domain e.eto with
      | none => exact processNodeEdges_none hfr hx
      | some td =>
        refine processNodeEdges_skip hfr hx ?_
        rw [ht]
        simp
    · exact processNodeEdges_not_from (Bool.not_eq_true _ |>.mp hfr)

/-- For a non-excluded source node, the edge loop over the full edge list
equals the edge loop over the exclusion-filtered edge list. -/
theorem foldl_processNodeEdges_filter (su sd : String)
    (hsu : is_excluded_domain su = false) :
    ∀ (edges : List GEdge) (st : AggState),
      edges.foldl (processNodeEdges su sd) st =
      (edges.filter
          (fun e => ! is_excluded_domain e.efrom && ! is_excluded_domain e.eto)).foldl
        (processNodeEdges su sd) st := by
  intro edges
  induction edges with
  | nil => intro st; rfl
  | cons e t ih =>
    intro st
    by_cases hke : (! is_excluded_domain e.efrom && ! is_excluded_domain e.eto) = true
    · rw [@List.filter_cons_of_pos _
          (fun ed => ! is_excluded_domain ed.efrom && ! is_excluded_domain ed.eto)
          e t hke,
        List.foldl_cons, List.foldl_cons, ih]
    · have hor : is_excluded_domain e.efrom = true ∨ is_excluded_domain e.eto = true := by
        by_cases ha : is_excluded_domain e.efrom = true
        · exact Or.inl ha
        · right
          have ha2 : is_excluded_domain e.efrom = false := Bool.not_eq_true _ |>.mp ha
          simp [ha2] at hke
          exact hke
      rw [@List.filter_cons_of_neg _
          (fun ed => ! is_excluded_domain ed.efrom && ! is_excluded_domain ed.eto)
          e t hke,
        List.foldl_cons, processNodeEdges_excluded hsu hor, ih]

/-- The node loop over the full snapshot equals the node loop over the
exclusion-filtered snapshot. -/
theorem foldl_processNode_filter (cn : String) (edges : List GEdge) :
    ∀ (nodes : List GNode) (st : AggState),
      nodes.foldl (processNode cn edges) st =
      (nodes.filter (fun n => ! is_excluded_domain n.id)).foldl
        (processNode cn (edges.filter
          (fun e => ! is_excluded_domain e.efrom && ! is_excluded_domain e.eto))) st := by
  intro nodes
  induction nodes with
  | nil => intro st; rfl
  | cons n t ih =>
    intro st
    by_cases hkn : (! is_excluded_domain n.id) = true
    · have hnx : is_excluded_domain n.id = false := by
        rw [Bool.not_eq_eq_eq_not, Bool.not_true] at hkn
        exact hkn
      have hstep : processNode cn edges st n =
          processNode cn (edges.filter
            (fun e => ! is_excluded_domain e.efrom && ! is_excluded_domain e.eto)) st n := by
        cases hx : extract_domain n.id with
        | none =>
          rw [processNode_none hx, processNode_none hx]
        | some sd =>
          by_cases hsd : (sd == ("") || is_excluded_domain n.id) = true
          · rw [processNode_skip hx hsd, processNode_skip hx hsd]
          · have hsd2 := Bool.not_eq_true _ |>.mp hsd
            rw [processNode_active hx hsd2, processNode_active hx hsd2]
            exact foldl_processNodeEdges_filter n.id sd hnx edges _
      rw [@List.filter_cons_of_pos _ (fun nd => ! is_excluded_domain nd.id) n t hkn,
        List.foldl_cons, List.foldl_cons, hstep, ih]
    · have hn : is_excluded_domain n.id = true := by
        rw [Bool.not_eq_eq_eq_not, Bool.not_true] at hkn
        simpa using hkn
      have hskip : processNode cn edges st n = st := by
        cases hx : extract_domain n.id with
        | none => exact processNode_none hx
        | some sd =>
          refine processNode_skip hx ?_
          rw [hn]
          simp
      rw [@List.filter_cons_of_neg _ (fun nd => ! is_excluded_domain nd.id) n t hkn,
        List.foldl_cons, hskip, ih]

/-- C7: excluded URLs contribute nothing to the aggregator — processing a
corpus gives exactly the same state, and hence the same emitted nodes and
edges, as processing the corpus with every excluded node and every edge
with an excluded endpoint removed. -/
theorem c7_excluded_urls_invisible (corpus : List Snapshot) :
    process_all_companies corpus = process_all_companies (corpus.map filterSnapshot) ∧
    emittedNodeDomains (process_all_companies corpus) =
      emittedNodeDomains (process_all_companies (corpus.map filterSnapshot)) ∧
    emittedEdges (process_all_companies corpus) =
      emittedEdges (process_all_companies (corpus.map filterSnapshot)) := by
  have hmain : process_all_companies corpus =
      process_all_companies (corpus.map filterSnapshot) := by
    unfold process_all_companies
    suffices h : ∀ (cs : List Snapshot) (st : AggState),
        cs.foldl (fun st snap => process_company_data st snap.company_name snap) st =
        (cs.map filterSnapshot).foldl
          (fun st snap => process_company_data st snap.company_name snap) st from
      h corpus initAggState
    intro cs
    induction cs with
    | nil => intro st; rfl
    | cons s t ih =>
      intro st
      rw [List.map_cons, List.foldl_cons, List.foldl_cons, ih]
      have hcn : (filterSnapshot s).company_name = s.company_name := rfl
      have hpcd : process_company_data st s.company_name s =
          process_company_data st s.company_name (filterSnapshot s) := by
        unfold process_company_data
        exact foldl_processNode_filter s.company_name s.edges s.nodes st
      rw [hcn, ← hpcd]
  exact ⟨hmain, by rw [hmain], by rw [hmain]⟩

/-! ## Claim C4 -/

/-- C4 (counterexample): `"http://a /"` passes `is_valid_url`, yet cleaning
it twice differs from cleaning it once — removing the trailing slash
exposes the inner space as new trailing whitespace, which only the second
pass strips. -/
theorem c4_counterexample_not_idempotent :
    is_valid_url ("http://a /") = true ∧
    clean_url (clean_url ("http://a /")) ≠ clean_url ("http://a /") := by
  exact ⟨by decide, by decide⟩

/-- C4 (amended): URL normalization is idempotent on every input that
passes `is_valid_url` and contains no whitespace character. -/
theorem c4_clean_url_idempotent (u : String)
    (hval : is_valid_url u = true)
    (hws : ∀ c ∈ u.data, pyWhitespace c = false) :
    clean_url (clean_url u) = clean_url u := by
  apply String.ext
  exact clean_urlList_idem u.data hws hval

/-- C4 (witness): idempotence at `"https://a.com"`. -/
theorem c4_witness :
    (is_valid_url ("https://a.com") = true ∧
     (∀ c ∈ ("https://a.com").data, pyWhitespace c = false)) ∧
    clean_url (clean_url ("https://a.com")) = clean_url ("https://a.com") :=
  ⟨⟨by decide, by decide⟩,
    c4_clean_url_idempotent ("https://a.com") (by decide) (by decide)⟩

/-! ## Claim C9 -/

/-- Removal of a trailing run of characters satisfying `p`, written as a
structural recursion; used to state the specification's trimming and
slash-removal independently of the implementation's reverse/dropWhile
form. -/
def dropTrailingSpec (p : Char → Bool) : List Char → List Char
  | [] => []
  | c :: cs =>
    let r := dropTrailingSpec p cs
    if r = [] ∧ p c = true then [] else c :: r

/-- The structural trailing-run removal agrees with the
reverse/dropWhile/reverse form. -/
theorem dropTrailingSpec_eq (p : Char → Bool) (l : List Char) :
    dropTrailingSpec p l = (l.reverse.dropWhile p).reverse := by
  induction l with
  | nil => rfl
  | cons c cs ih =>
    show (if dropTrailingSpec p cs = [] ∧ p c = true then []
          else c :: dropTrailingSpec p cs) = ((c :: cs).reverse.dropWhile p).reverse
    rw [List.reverse_cons, List.dropWhile_append]
    by_cases h : cs.reverse.dropWhile p = []
    · have hemp : (cs.reverse.dropWhile p).isEmpty = true := by
        rw [h]
        rfl
      rw [hemp, if_pos rfl]
      have hr : dropTrailingSpec p cs = [] := by
        rw [ih, h]
        rfl
      rw [hr]
      by_cases hpc : p c = true
      · rw [if_pos ⟨rfl, hpc⟩,
          show List.dropWhile p [c] = [] from by rw [List.dropWhile_cons, if_pos hpc]; rfl]
        rfl
      · rw [if_neg (fun hh => hpc hh.2),
          show List.dropWhile p [c] = [c] from by rw [List.dropWhile_cons, if_neg hpc]]
        rfl
    · have hemp : (cs.reverse.dropWhile p).isEmpty = false := by
        cases hx : cs.reverse.dropWhile p with
        | nil => exact absurd hx h
        | cons a b => rfl
      rw [hemp]
      simp only [Bool.false_eq_true, if_false]
      have hr : dropTrailingSpec p cs ≠ [] := by
        rw [ih]
        simpa using h
      rw [if_neg (fun hh => hr hh.1), List.reverse_append, ih]
      rfl

/-- Spec formulation of the `www.` strip: compare the first four characters
with `take`. -/
def stripWwwSpec (l : List Char) : List Char :=
  if l.take 4 = wwwChars then l.drop 4 else l

/-- Spec formulation of the scheme step: compare leading segments with
`take`. -/
def prependSchemeSpec (l : List Char) : List Char :=
  if l.take 7 = httpChars ∨ l.take 8 = httpsChars then l else httpsChars ++ l

/-- Boolean prefix test versus `take`. -/
theorem isPrefixOf_iff_take (pre l : List Char) :
    pre.isPrefixOf l = true ↔ l.take pre.length = pre := by
  rw [List.isPrefixOf_iff_prefix, List.prefix_iff_eq_take]
  exact ⟨fun h => h.symm, fun h => h.symm⟩

/-- The implementation's `www.` step agrees with the spec formulation. -/
theorem wwwStep_take (x : List Char) : wwwStep x = stripWwwSpec x := by
  unfold wwwStep stripWwwSpec
  by_cases h : x.take 4 = wwwChars
  · rw [if_pos ((isPrefixOf_iff_take wwwChars x).mpr h), if_pos h]
  · rw [if_neg (fun hc => h ((isPrefixOf_iff_take wwwChars x).mp hc)), if_neg h]

/-- The implementation's scheme step agrees with the spec formulation. -/
theorem schemeStep_take (x : List Char) : schemeStep x = prependSchemeSpec x := by
  unfold schemeStep prependSchemeSpec
  by_cases h : x.take 7 = httpChars ∨ x.take 8 = httpsChars
  · have hb : (httpChars.isPrefixOf x || httpsChars.isPrefixOf x) = true := by
      rcases h with h | h
      · rw [(isPrefixOf_iff_take httpChars x).mpr h]
        rfl
      · rw [(isPrefixOf_iff_take httpsChars x).mpr h, Bool.or_true]
    rw [if_pos hb, if_pos h]
  · have h1 : httpChars.isPrefixOf x = false :=
      Bool.not_eq_true _ |>.mp (fun hc => (not_or.mp h).1 ((isPrefixOf_iff_take _ _).mp hc))
    have h2 : httpsChars.isPrefixOf x = false :=
      Bool.not_eq_true _ |>.mp (fun hc => (not_or.mp h).2 ((isPrefixOf_iff_take _ _).mp hc))
    rw [h1, h2]
    simp only [Bool.or_false, Bool.false_eq_true, if_false]
    rw [if_neg h]

/-- The amended claim's normalizer, written from the specification's words:
for nonempty input, trim whitespace, case-fold, strip a leading `"www."`,
prepend `"https://"` when neither scheme prefix is present, and remove the
whole trailing run of `'/'` characters; the empty string maps to itself. -/
def clean_url_spec (u : String) : String :=
  if u = "" then ""
  else
    String.mk (dropTrailingSpec (fun c => c == '/')
      (prependSchemeSpec (stripWwwSpec
        ((dropTrailingSpec pyWhitespace (u.data.dropWhile pyWhitespace)).map pyCharLower))))

/-- C9 (amended): `clean_url` removes the whole trailing run of slashes
(not exactly one), after trimming, case-folding, `www.`-stripping and
scheme-prepending, and maps the empty string to itself. -/
theorem c9_amended_normalizer_spec (u : String) : clean_url u = clean_url_spec u := by
  unfold clean_url clean_url_spec
  by_cases hu : u = ""
  · rw [if_pos hu, hu]
    rfl
  · rw [if_neg hu]
    apply String.ext
    show clean_urlList u.data = _
    have hne : u.data ≠ [] := by
      intro hh
      exact hu (String.ext hh)
    unfold clean_urlList
    rw [if_neg hne, dropTrailingSpec_eq, dropTrailingSpec_eq, ← wwwStep_take,
      ← schemeStep_take]
    rfl

/-- The original claim's normalizer: same pipeline but removing exactly one
trailing `'/'`, applied to every input string with no empty-input case. -/
def clean_url_one_slash (u : String) : String :=
  String.mk
    (let t := prependSchemeSpec (stripWwwSpec
      ((dropTrailingSpec pyWhitespace (u.data.dropWhile pyWhitespace)).map pyCharLower))
     if t.getLast? = some '/' then t.dropLast else t)

/-- C9 (counterexample): on `"https://a.com//"` the code removes both
trailing slashes where the claim predicts one survives, and on the empty
string the code returns `""` where the claim's pipeline would produce a
scheme. -/
theorem c9_counterexample_rstrip_all :
    clean_url ("https://a.com//") = ("https://a.com") ∧
    clean_url_one_slash ("https://a.com//") = ("https://a.com/") ∧
    clean_url ("https://a.com//") ≠ clean_url_one_slash ("https://a.com//") ∧
    clean_url ("") = ("") ∧
    clean_url_one_slash ("") ≠ clean_url ("") := by
  exact ⟨by decide, by decide, by decide, by decide, by decide⟩
